import Mathlib

/-!
Verification of the MLX weight-remapping scripts.

The embedding below translates `remap_weights_for_mlx_unified.py` and the
presence-checking pass of `verify_mlx_weights.py` into Lean.

Modelling conventions:
* A numpy/torch tensor is a `Tensor`: a shape together with its flat
  row-major element list.  Element values are modelled as `Int`; the scripts
  never do arithmetic on element values (they only copy, slice, concatenate,
  reshape, zero-pad, and synthesize constant vectors), so the element type is
  irrelevant to the control flow.
* A checkpoint (`state_dict`, and likewise the produced MLX mapping) is an
  association list from string keys to tensors.
* Python exceptions are modelled with `Except PyErr`: `KeyError` from
  `state_dict[k]`, `ValueError` from `int(...)`, `np.pad` with a negative pad
  width, `np.concatenate`/`np.stack`/`reshape` shape mismatches, `IndexError`
  from out-of-range tuple indexing, and `ZeroDivisionError` from the
  mapping-rate computation `len(mlx_weights)/len(state_dict)`.
* String scanning (`startswith`, `split('.')`, `in`, `isdigit`, `int(...)`)
  is modelled by structural functions over `String.data` so that every
  definition is kernel-reducible on concrete inputs.  `int(...)` is modelled
  for ASCII digit strings with an optional sign (no whitespace or underscore
  forms).
* File and console I/O is outside the model; the model covers the whole
  in-memory transform up to and including the mapping-rate computation, plus
  the pure values written to the metadata record.
-/

/-- A multi-dimensional numeric array: shape plus flat row-major data. -/
structure Tensor where
  shape : List Nat
  data : List Int
deriving DecidableEq, Repr, Inhabited

/-- The Python exceptions the modelled code can raise. -/
inductive PyErr where
  | keyError (k : String)
  | valueError (msg : String)
  | indexError
  | zeroDivisionError
deriving DecidableEq, Repr, Inhabited

/-- A checkpoint: mapping from string key to tensor. -/
abbrev StateDict := List (String × Tensor)

/-- Dictionary membership lookup (`k in d` / `d.get`). -/
def lookupKey (sd : StateDict) (k : String) : Option Tensor :=
  (sd.find? (fun kv => kv.1 = k)).map (·.2)

/-- Subscript access `d[k]`, raising `KeyError` when the key is absent. -/
def getKey (sd : StateDict) (k : String) : Except PyErr Tensor :=
  match lookupKey sd k with
  | some t => .ok t
  | none => .error (.keyError k)

/-- Decimal digits of a natural number, most significant first (fuel-based so
that it is structurally recursive and kernel-reducible). -/
def natDigitsAux : Nat → Nat → List Nat → List Nat
  | 0, _, acc => acc
  | fuel + 1, n, acc => if n < 10 then n :: acc else natDigitsAux fuel (n / 10) (n % 10 :: acc)

/-- Decimal digits of `n`, most significant first. -/
def natDigits (n : Nat) : List Nat := natDigitsAux (n + 1) n []

/-- The ASCII character of a decimal digit. -/
def digChar (d : Nat) : Char := Char.ofNat (48 + d)

/-- Decimal rendering of a natural number, as Python f-strings produce it. -/
def natStr (n : Nat) : String := ⟨(natDigits n).map digChar⟩

/-- Source-key layer path `f"h.{i}"`. -/
def hPre (i : Nat) : String := "h." ++ natStr i

/-- Destination-key layer path `f"model.layers.{i}"`. -/
def mlxPre (i : Nat) : String := "model.layers." ++ natStr i

/-- Python `s.split('.')` on the character list of `s`. -/
def splitDots : List Char → List (List Char)
  | [] => [[]]
  | c :: rest =>
    if c = '.' then [] :: splitDots rest
    else
      match splitDots rest with
      | g :: gs => (c :: g) :: gs
      | [] => [[c]]

/-- Python substring containment `pat in s`. -/
def hasSubstr (pat : List Char) : List Char → Bool
  | [] => pat.isEmpty
  | c :: rest => pat.isPrefixOf (c :: rest) || hasSubstr pat rest

/-- Python `s.isdigit()` for ASCII strings. -/
def isDigitStr (cs : List Char) : Bool := !cs.isEmpty && cs.all Char.isDigit

/-- Numeric value of an ASCII digit string. -/
def digitsVal (cs : List Char) : Nat := cs.foldl (fun a c => a * 10 + (c.toNat - 48)) 0

/-- Python `int(s)` for ASCII strings: optional sign followed by digits;
raises `ValueError` otherwise (whitespace and underscore forms not modelled). -/
def pyInt : List Char → Except PyErr Int
  | [] => .error (.valueError "invalid literal for int")
  | c :: rest =>
    if c = '-' then
      if isDigitStr rest then .ok (-(digitsVal rest : Int))
      else .error (.valueError "invalid literal for int")
    else if c = '+' then
      if isDigitStr rest then .ok (digitsVal rest : Int)
      else .error (.valueError "invalid literal for int")
    else if isDigitStr (c :: rest) then .ok (digitsVal (c :: rest) : Int)
    else .error (.valueError "invalid literal for int")

/-- Sequencing in the exception monad: run `x`; on success feed the value to
`f`, otherwise propagate the exception (this is exactly `Except.bind`,
written as an explicit match for easy case analysis). -/
def bindE {α β : Type} (x : Except PyErr α) (f : α → Except PyErr β) : Except PyErr β :=
  match x with
  | .error e => .error e
  | .ok a => f a

/-- Sequencing after a raised exception propagates the exception. -/
@[simp] theorem bindE_error {α β : Type} (e : PyErr) (f : α → Except PyErr β) :
    bindE (.error e) f = .error e := rfl

/-- Sequencing after a successful step runs the continuation. -/
@[simp] theorem bindE_ok {α β : Type} (a : α) (f : α → Except PyErr β) :
    bindE (.ok a) f = f a := rfl

/-- Inversion of a successful sequencing. -/
theorem bindE_eq_ok {α β : Type} {x : Except PyErr α} {f : α → Except PyErr β}
    {b : β} (h : bindE x f = .ok b) : ∃ a, x = .ok a ∧ f a = .ok b := by
  cases x with
  | error e => simp at h
  | ok a => exact ⟨a, rfl, h⟩

/-- Effectful map over a list in the `Except` monad, stopping at the first
raised exception (the semantics of a Python list comprehension over fallible
expressions, and of running loop iterations in order). -/
def mapME {α β : Type} (f : α → Except PyErr β) : List α → Except PyErr (List β)
  | [] => .ok []
  | x :: xs => bindE (f x) fun y => bindE (mapME f xs) fun ys => .ok (y :: ys)

/-- Maximum of a list of integers with seed equal to its head (Python `max`
on a non-empty list; the `[]` case is unreachable in the code below). -/
def listMaxI : List Int → Int
  | [] => 0
  | x :: xs => xs.foldl max x

/-- Maximum of a list of naturals with seed equal to its head. -/
def listMaxN : List Nat → Nat
  | [] => 0
  | x :: xs => xs.foldl max x

/-- Layer-count auto-detection (lines 57–58): collect keys starting with
`"h."`, parse `k.split('.')[1]` with `int(...)` (a `ValueError` if any such
component is not an integer), and return `max + 1`, or `0` when no key starts
with `"h."`. -/
def detectNumLayers (sd : StateDict) : Except PyErr Int :=
  let layer_keys := sd.filter (fun kv => "h.".data.isPrefixOf kv.1.data)
  if layer_keys.isEmpty then
    .ok 0
  else
    bindE (mapME (fun kv => pyInt ((splitDots kv.1.data).getD 1 [])) layer_keys)
      fun idxs => .ok (listMaxI idxs + 1)

/-- Expert-count auto-detection (lines 62–63): keys containing
`"mlp.experts."` with more than four dot-components whose fifth component is
all digits; result is `max + 1` or `0`.  The `isdigit` guard means this scan
never raises. -/
def detectNumExperts (sd : StateDict) : Nat :=
  let expert_keys := sd.filter (fun kv =>
    hasSubstr "mlp.experts.".data kv.1.data
    && decide ((splitDots kv.1.data).length > 4)
    && isDigitStr ((splitDots kv.1.data).getD 4 []))
  match expert_keys.map (fun kv => digitsVal ((splitDots kv.1.data).getD 4 [])) with
  | [] => 0
  | x :: xs => xs.foldl max x + 1

/-- Intermediate-size detection (lines 71–72): `state_dict[k].shape[0]` if
the sentinel key is present, else the hardcoded fallback. -/
def detectDim0 (sd : StateDict) (k : String) (fallback : Nat) : Except PyErr Nat :=
  match lookupKey sd k with
  | some t =>
    match t.shape with
    | d :: _ => .ok d
    | [] => .error .indexError
  | none => .ok fallback

/-- `np.ones(n, dtype=np.float32)`. -/
def onesT (n : Nat) : Tensor := ⟨[n], List.replicate n 1⟩

/-- `np.zeros(n, dtype=np.float32)`. -/
def zerosT (n : Nat) : Tensor := ⟨[n], List.replicate n 0⟩

/-- `pad_weight(weight_np, target_shape)` (lines 18–39).  All call sites pass
a 2-tuple target, given here as `t0, t1`.  Rank-2 arrays are padded at the
high end on each axis when `pad_out > 0 or pad_in > 0`; `np.pad` raises
`ValueError` when either computed pad width is negative.  Rank-1 arrays pad
the single axis when the amount is positive.  Other ranks fall through
unchanged. -/
def pad_weight (w : Tensor) (t0 t1 : Nat) : Except PyErr Tensor :=
  if w.shape = [t0, t1] then .ok w else
  match w.shape with
  | [r, c] =>
    let pad_out : Int := (t0 : Int) - (r : Int)
    let pad_in : Int := (t1 : Int) - (c : Int)
    if pad_out > 0 ∨ pad_in > 0 then
      if pad_out < 0 ∨ pad_in < 0 then
        .error (.valueError "index cannot contain negative values")
      else
        .ok ⟨[r + pad_out.toNat, c + pad_in.toNat],
          ((List.range r).flatMap fun i =>
            (w.data.drop (i * c)).take c ++ List.replicate pad_in.toNat 0)
          ++ List.replicate (pad_out.toNat * (c + pad_in.toNat)) 0⟩
    else .ok w
  | [n] =>
    let pad_amt : Int := (t0 : Int) - (n : Int)
    if pad_amt > 0 then .ok ⟨[n + pad_amt.toNat], w.data ++ List.replicate pad_amt.toNat 0⟩
    else .ok w
  | _ => .ok w

/-- Rank-2 row slice `w[:n, :]` (numpy clamps when fewer than `n` rows). -/
def sliceRows (w : Tensor) (n : Nat) : Except PyErr Tensor :=
  match w.shape with
  | [r, c] => .ok ⟨[min n r, c], w.data.take (min n r * c)⟩
  | _ => .error .indexError

/-- `np.concatenate([x, y], axis=0)` on rank-2 arrays. -/
def concatRows (x y : Tensor) : Except PyErr Tensor :=
  match x.shape, y.shape with
  | [r1, c1], [r2, c2] =>
    if c1 = c2 then .ok ⟨[r1 + r2, c1], x.data ++ y.data⟩
    else .error (.valueError "concatenate dimension mismatch")
  | _, _ => .error (.valueError "concatenate rank mismatch")

/-- `w.reshape(a, b, -1)`: flat data unchanged, last dimension inferred;
`ValueError` when the element count is not divisible. -/
def reshapeHeads (w : Tensor) (a b : Nat) : Except PyErr Tensor :=
  if 0 < a * b ∧ (a * b) ∣ w.data.length then
    .ok ⟨[a, b, w.data.length / (a * b)], w.data⟩
  else .error (.valueError "cannot reshape")

/-- Rank-3 middle-axis slice `w[:, :n, :]`. -/
def sliceMid (w : Tensor) (n : Nat) : Except PyErr Tensor :=
  match w.shape with
  | [a, b, c] =>
    .ok ⟨[a, min n b, c],
      (List.range a).flatMap fun h => (w.data.drop (h * (b * c))).take (min n b * c)⟩
  | _ => .error .indexError

/-- `np.concatenate([x, y], axis=1)` on rank-3 arrays. -/
def concatMid (x y : Tensor) : Except PyErr Tensor :=
  match x.shape, y.shape with
  | [a1, b1, c1], [a2, b2, c2] =>
    if a1 = a2 ∧ c1 = c2 then
      .ok ⟨[a1, b1 + b2, c1],
        (List.range a1).flatMap fun h =>
          (x.data.drop (h * (b1 * c1))).take (b1 * c1)
          ++ (y.data.drop (h * (b2 * c1))).take (b2 * c1)⟩
    else .error (.valueError "concatenate dimension mismatch")
  | _, _ => .error (.valueError "concatenate rank mismatch")

/-- `w.reshape(-1, c)`: first dimension inferred. -/
def reshapeCols (w : Tensor) (c : Nat) : Except PyErr Tensor :=
  if 0 < c ∧ c ∣ w.data.length then .ok ⟨[w.data.length / c, c], w.data⟩
  else .error (.valueError "cannot reshape")

/-- `np.stack(ts)`: new leading axis; `ValueError` on an empty list or
mismatched shapes. -/
def stackT : List Tensor → Except PyErr Tensor
  | [] => .error (.valueError "need at least one array to stack")
  | t :: ts =>
    if ts.all (fun u => u.shape = t.shape) then
      .ok ⟨(ts.length + 1) :: t.shape, (t :: ts).flatMap Tensor.data⟩
    else .error (.valueError "all input arrays must have the same shape")

/-- A guarded identity-copy translation: `if src in state_dict:` add the
destination entry and increment the mapped count. -/
def guardEntry (sd : StateDict) (src dst : String) : List (String × Tensor) × Nat :=
  match lookupKey sd src with
  | some w => ([(dst, w)], 1)
  | none => ([], 0)

/-- The `kv_a_proj_with_mqa` translation (lines 132–145): concatenate
`kv_proj` with the first 32 rows of `k_rope_proj`, guarded on both keys. -/
def kvAEntries (sd : StateDict) (i : Nat) : Except PyErr (List (String × Tensor) × Nat) :=
  match lookupKey sd (hPre i ++ ".attn.kv_proj.weight"),
        lookupKey sd (hPre i ++ ".attn.k_rope_proj.weight") with
  | some kv_proj, some k_rope_proj =>
    bindE (sliceRows k_rope_proj 32) fun k_rope_head =>
    bindE (concatRows kv_proj k_rope_head) fun kv_a_proj_combined =>
    .ok ([(mlxPre i ++ ".self_attn.kv_a_proj_with_mqa.weight", kv_a_proj_combined)], 1)
  | _, _ => .ok ([], 0)

/-- The `kv_b_proj` tensor computation (lines 162–175): reshape both inputs
to `[8, 64, -1]`, take the first 32 mid-axis rows of `k`, concatenate with
`v` per head, and flatten back to `[-1, 128]`. -/
def kvBCombine (k_decompress v_decompress : Tensor) : Except PyErr Tensor :=
  bindE (reshapeHeads k_decompress 8 64) fun k_per_head =>
  bindE (reshapeHeads v_decompress 8 64) fun v_per_head =>
  bindE (sliceMid k_per_head 32) fun k_nope =>
  bindE (concatMid k_nope v_per_head) fun combined =>
  reshapeCols combined 128

/-- The `kv_b_proj` translation (lines 151–177), guarded on both source keys. -/
def kvBEntries (sd : StateDict) (i : Nat) : Except PyErr (List (String × Tensor) × Nat) :=
  match lookupKey sd (hPre i ++ ".attn.k_decompress.weight"),
        lookupKey sd (hPre i ++ ".attn.v_decompress.weight") with
  | some kd, some vd =>
    bindE (kvBCombine kd vd) fun kv_b_combined =>
    .ok ([(mlxPre i ++ ".self_attn.kv_b_proj.weight", kv_b_combined)], 1)
  | _, _ => .ok ([], 0)

/-- Line 200: `hidden_size = state_dict["wte.weight"].shape[1]` — an
unguarded dictionary access followed by tuple indexing. -/
def hiddenSize (sd : StateDict) : Except PyErr Nat :=
  bindE (getKey sd "wte.weight") fun wte =>
  match wte.shape with
  | _ :: h :: _ => .ok h
  | _ => .error .indexError

/-- Source key of routed expert `j`'s gate projection in layer `i`. -/
def expGateKey (i j : Nat) : String := hPre i ++ ".mlp.experts." ++ natStr j ++ ".gate_proj.weight"

/-- Source key of routed expert `j`'s up projection in layer `i`. -/
def expUpKey (i j : Nat) : String := hPre i ++ ".mlp.experts." ++ natStr j ++ ".up_proj.weight"

/-- Source key of routed expert `j`'s down projection in layer `i`. -/
def expDownKey (i j : Nat) : String := hPre i ++ ".mlp.experts." ++ natStr j ++ ".down_proj.weight"

/-- The expert collection loop (lines 206–225) for one projection kind:
for each `j < nE`, if the source key is present, pad to the target shape and
append.  (The source iterates the three kinds inside one loop over `j`;
collecting each kind separately is observationally equal because every
`np.pad` failure is the same modelled `ValueError`.) -/
def collectLoop (sd : StateDict) (keyOf : Nat → String) (t0 t1 : Nat) :
    List Nat → List Tensor → Except PyErr (List Tensor)
  | [], acc => .ok acc
  | j :: js, acc =>
    match lookupKey sd (keyOf j) with
    | some w =>
      bindE (pad_weight w t0 t1) fun p =>
      collectLoop sd keyOf t0 t1 js (acc ++ [p])
    | none => collectLoop sd keyOf t0 t1 js acc

/-- Expert collection for one kind over `j in range(num_experts)`. -/
def collectPadded (sd : StateDict) (keyOf : Nat → String) (t0 t1 nE : Nat) :
    Except PyErr (List Tensor) :=
  collectLoop sd keyOf t0 t1 (List.range nE) []

/-- Stacking one expert kind (lines 228–238): only when the collected list is
non-empty. -/
def stackEntry (dst : String) : List Tensor → Except PyErr (List (String × Tensor) × Nat)
  | [] => .ok ([], 0)
  | t :: ts =>
    bindE (stackT (t :: ts)) fun s =>
    .ok ([(dst, s)], 1)

/-- The shared-expert block (lines 241–248): guarded only on `gate_proj`;
`up_proj` and `down_proj` are unguarded subscript accesses. -/
def sharedEntries (sd : StateDict) (i : Nat) : Except PyErr (List (String × Tensor) × Nat) :=
  match lookupKey sd (hPre i ++ ".mlp.shared_expert.gate_proj.weight") with
  | some g =>
    bindE (getKey sd (hPre i ++ ".mlp.shared_expert.up_proj.weight")) fun u =>
    bindE (getKey sd (hPre i ++ ".mlp.shared_expert.down_proj.weight")) fun d =>
    .ok ([(mlxPre i ++ ".mlp.shared_experts.gate_proj.weight", g),
          (mlxPre i ++ ".mlp.shared_experts.up_proj.weight", u),
          (mlxPre i ++ ".mlp.shared_experts.down_proj.weight", d)], 3)
  | none => .ok ([], 0)

/-- One iteration of the per-layer loop (lines 96–248), in source order:
layer norms, simple attention renames, synthesized `q_a_layernorm`,
`kv_a_proj_with_mqa`, `kv_b_proj`, `o_proj`, router, synthesized
`e_score_correction_bias`, the hidden-size lookup, padded-and-stacked
experts, and the shared-expert block. -/
def layerEntries (sd : StateDict) (unified_size nE : Nat) (i : Nat) :
    Except PyErr (List (String × Tensor) × Nat) :=
  let ln1 := guardEntry sd (hPre i ++ ".ln_1.weight") (mlxPre i ++ ".input_layernorm.weight")
  let ln2 := guardEntry sd (hPre i ++ ".ln_2.weight") (mlxPre i ++ ".post_attention_layernorm.weight")
  let qa := guardEntry sd (hPre i ++ ".attn.q_proj.weight") (mlxPre i ++ ".self_attn.q_a_proj.weight")
  let qb := guardEntry sd (hPre i ++ ".attn.q_decompress.weight") (mlxPre i ++ ".self_attn.q_b_proj.weight")
  let kvn := guardEntry sd (hPre i ++ ".attn.kv_norm.weight") (mlxPre i ++ ".self_attn.kv_a_layernorm.weight")
  let qaln : List (String × Tensor) × Nat :=
    ([(mlxPre i ++ ".self_attn.q_a_layernorm.weight", onesT 192)], 1)
  bindE (kvAEntries sd i) fun kvA =>
  bindE (kvBEntries sd i) fun kvB =>
  let op := guardEntry sd (hPre i ++ ".attn.o_proj.weight") (mlxPre i ++ ".self_attn.o_proj.weight")
  let rt := guardEntry sd (hPre i ++ ".mlp.router.weight") (mlxPre i ++ ".mlp.gate.weight")
  let bias : List (String × Tensor) × Nat :=
    ([(mlxPre i ++ ".mlp.gate.e_score_correction_bias", zerosT nE)], 1)
  bindE (hiddenSize sd) fun hidden_size =>
  bindE (collectPadded sd (expGateKey i) unified_size hidden_size nE) fun gates =>
  bindE (collectPadded sd (expUpKey i) unified_size hidden_size nE) fun ups =>
  bindE (collectPadded sd (expDownKey i) hidden_size unified_size nE) fun downs =>
  bindE (stackEntry (mlxPre i ++ ".mlp.switch_mlp.gate_proj.weight") gates) fun ge =>
  bindE (stackEntry (mlxPre i ++ ".mlp.switch_mlp.up_proj.weight") ups) fun ue =>
  bindE (stackEntry (mlxPre i ++ ".mlp.switch_mlp.down_proj.weight") downs) fun de =>
  bindE (sharedEntries sd i) fun sh =>
  .ok (ln1.1 ++ ln2.1 ++ qa.1 ++ qb.1 ++ kvn.1 ++ qaln.1 ++ kvA.1 ++ kvB.1
        ++ op.1 ++ rt.1 ++ bias.1 ++ ge.1 ++ ue.1 ++ de.1 ++ sh.1,
       ln1.2 + ln2.2 + qa.2 + qb.2 + kvn.2 + qaln.2 + kvA.2 + kvB.2
        + op.2 + rt.2 + bias.2 + ge.2 + ue.2 + de.2 + sh.2)

/-- The values the script records in `weight_mapping_info.json` together with
the produced weight mapping and the mapped-count accumulator. -/
structure RemapResult where
  weights : List (String × Tensor)
  mapped_count : Nat
  num_layers : Int
  num_experts : Nat
  routed_size : Nat
  shared_size : Nat
  unified_size : Nat
  padding_applied : Bool
deriving DecidableEq, Repr, Inhabited

/-- `remap_weights` (lines 41–309): detection, the remapping loop, and the
mapping-rate computation `len(mlx_weights)/len(state_dict)` (modelled by its
divide-by-zero guard, since only the printed rate uses the quotient).  The
returned record carries the produced mapping and the metadata values. -/
def remap_weights (sd : StateDict) : Except PyErr RemapResult :=
  bindE (detectNumLayers sd) fun num_layers =>
  let num_experts := detectNumExperts sd
  bindE (detectDim0 sd "h.0.mlp.experts.0.gate_proj.weight" 512) fun routed_size =>
  bindE (detectDim0 sd "h.0.mlp.shared_expert.gate_proj.weight" 768) fun shared_size =>
  let unified_size := max routed_size shared_size
  let embed := guardEntry sd "wte.weight" "model.embed_tokens.weight"
  bindE (mapME (layerEntries sd unified_size num_experts) (List.range num_layers.toNat)) fun layers =>
  let lnf := guardEntry sd "ln_f.weight" "model.norm.weight"
  let head := guardEntry sd "lm_head.weight" "lm_head.weight"
  if sd.length = 0 then .error .zeroDivisionError
  else
    .ok { weights := embed.1 ++ layers.flatMap (·.1) ++ lnf.1 ++ head.1
        , mapped_count := embed.2 + (layers.map (·.2)).sum + lnf.2 + head.2
        , num_layers := num_layers
        , num_experts := num_experts
        , routed_size := routed_size
        , shared_size := shared_size
        , unified_size := unified_size
        , padding_applied := decide (routed_size ≠ unified_size) }

/-- The fixed per-layer key catalogue of `verify_mlx_weights.py`
(lines 38–77), with the shared-expert triple included iff
`n_shared_experts > 0`. -/
def verifierLayerKeys (shared : Bool) (i : Nat) : List String :=
  [mlxPre i ++ ".input_layernorm.weight",
   mlxPre i ++ ".post_attention_layernorm.weight",
   mlxPre i ++ ".self_attn.q_a_proj.weight",
   mlxPre i ++ ".self_attn.q_a_layernorm.weight",
   mlxPre i ++ ".self_attn.q_b_proj.weight",
   mlxPre i ++ ".self_attn.kv_a_proj_with_mqa.weight",
   mlxPre i ++ ".self_attn.kv_a_layernorm.weight",
   mlxPre i ++ ".self_attn.kv_b_proj.weight",
   mlxPre i ++ ".self_attn.o_proj.weight",
   mlxPre i ++ ".mlp.gate.weight",
   mlxPre i ++ ".mlp.gate.e_score_correction_bias",
   mlxPre i ++ ".mlp.switch_mlp.gate_proj.weight",
   mlxPre i ++ ".mlp.switch_mlp.up_proj.weight",
   mlxPre i ++ ".mlp.switch_mlp.down_proj.weight"]
  ++ (if shared then
      [mlxPre i ++ ".mlp.shared_experts.gate_proj.weight",
       mlxPre i ++ ".mlp.shared_experts.up_proj.weight",
       mlxPre i ++ ".mlp.shared_experts.down_proj.weight"]
     else [])

/-- Every key `verify_mlx_weights.py` requires, in checking order. -/
def verifierRequired (num_hidden_layers : Nat) (shared : Bool) : List String :=
  ["model.embed_tokens.weight"]
  ++ (List.range num_hidden_layers).flatMap (verifierLayerKeys shared)
  ++ ["model.norm.weight", "lm_head.weight"]

/-- The `missing` list the verifier reports, given the destination key set. -/
def verifierMissing (ks : List String) (num_hidden_layers : Nat) (shared : Bool) :
    List String :=
  (verifierRequired num_hidden_layers shared).filter (fun k => ¬ (k ∈ ks))

/-- The catalogue of source keys the remapper reads for layer `i` when the
checkpoint has `E` experts per layer. -/
def srcLayerKeys (E : Nat) (i : Nat) : List String :=
  [hPre i ++ ".ln_1.weight", hPre i ++ ".ln_2.weight",
   hPre i ++ ".attn.q_proj.weight", hPre i ++ ".attn.q_decompress.weight",
   hPre i ++ ".attn.kv_norm.weight",
   hPre i ++ ".attn.kv_proj.weight", hPre i ++ ".attn.k_rope_proj.weight",
   hPre i ++ ".attn.k_decompress.weight", hPre i ++ ".attn.v_decompress.weight",
   hPre i ++ ".attn.o_proj.weight", hPre i ++ ".mlp.router.weight",
   hPre i ++ ".mlp.shared_expert.gate_proj.weight",
   hPre i ++ ".mlp.shared_expert.up_proj.weight",
   hPre i ++ ".mlp.shared_expert.down_proj.weight"]
  ++ (List.range E).flatMap (fun j => [expGateKey i j, expUpKey i j, expDownKey i j])

/-- A source checkpoint is complete for `L` layers and `E` experts per layer
when every catalogue source key is present, plus embedding, final norm and
head keys. -/
def completeSrc (sd : StateDict) (L E : Nat) : Prop :=
  ∀ k ∈ ("wte.weight" :: "ln_f.weight" :: "lm_head.weight" ::
         (List.range L).flatMap (srcLayerKeys E)), (lookupKey sd k).isSome

/-! ### List infrastructure: chunked flat data, maxima, effectful maps -/

/-- Consecutive `c`-chunks reassemble a list of length `r * c`. -/
theorem flatMap_range_chunks (l : List Int) (r c : Nat) (h : l.length = r * c) :
    (List.range r).flatMap (fun i => (l.drop (i * c)).take c) = l := by
  induction r generalizing l with
  | zero =>
    simp only [List.range_zero, List.flatMap_nil]
    exact (List.length_eq_zero.mp (by simpa using h)).symm
  | succ r ih =>
    have h2 : (l.drop c).length = r * c := by
      simp only [List.length_drop, h, Nat.succ_mul]; omega
    have h1 : (List.range (r + 1)).flatMap (fun i => (l.drop (i * c)).take c)
        = l.take c ++ (List.range r).flatMap (fun i => ((l.drop c).drop (i * c)).take c) := by
      rw [List.range_succ_eq_map]
      simp only [List.flatMap_cons, List.flatMap_map, Nat.zero_mul, List.drop_zero]
      congr 1
      apply List.flatMap_congr
      intro i _
      rw [List.drop_drop]
      congr 2
      rw [Nat.succ_mul]
      omega
    rw [h1, ih (l.drop c) h2, List.take_append_drop]

/-- Dropping `q` whole chunks from a flatMap of equal-length chunks. -/
theorem flatMap_range_drop (m : Nat) :
    ∀ (q : Nat) (f : Nat → List Int) (n : Nat),
      (∀ i, i < n → (f i).length = m) → q < n →
    ((List.range n).flatMap f).drop (q * m) =
      f q ++ (List.range (n - (q + 1))).flatMap (fun i => f (q + 1 + i)) := by
  intro q
  induction q with
  | zero =>
    intro f n hf hq
    obtain ⟨k, rfl⟩ : ∃ k, n = k + 1 := ⟨n - 1, by omega⟩
    rw [List.range_succ_eq_map]
    simp only [List.flatMap_cons, List.flatMap_map, Nat.zero_mul, List.drop_zero,
      Nat.add_sub_cancel]
    congr 1
    apply List.flatMap_congr
    intro i _
    congr 1
    omega
  | succ q ih =>
    intro f n hf hq
    obtain ⟨k, rfl⟩ : ∃ k, n = k + 1 := ⟨n - 1, by omega⟩
    have hlen : (f 0).length = m := hf 0 (by omega)
    have hsm : (List.range (k + 1)).flatMap f
        = f 0 ++ (List.range k).flatMap (fun i => f (i + 1)) := by
      rw [List.range_succ_eq_map]
      simp only [List.flatMap_cons, List.flatMap_map]
    have hstep : (f 0 ++ (List.range k).flatMap (fun i => f (i + 1))).drop ((q + 1) * m)
        = ((List.range k).flatMap (fun i => f (i + 1))).drop (q * m) := by
      have h1 : (f 0 ++ (List.range k).flatMap (fun i => f (i + 1))).drop ((q + 1) * m)
          = ((f 0 ++ (List.range k).flatMap (fun i => f (i + 1))).drop m).drop (q * m) := by
        rw [List.drop_drop]
        congr 1
        ring
      rw [h1, List.drop_left' hlen]
    rw [hsm, hstep, ih (fun i => f (i + 1)) k (fun i hi => hf (i + 1) (by omega)) (by omega)]
    have harg : k - (q + 1) = k + 1 - (q + 1 + 1) := by omega
    rw [harg]
    congr 1
    apply List.flatMap_congr
    intro i _
    congr 1
    omega

/-- Extracting a sub-segment of chunk `q` from a flatMap of equal-length
chunks. -/
theorem flatMap_chunk_sub (f : Nat → List Int) {n m q o t : Nat}
    (hf : ∀ i, i < n → (f i).length = m) (hq : q < n) (hot : o + t ≤ m) :
    (((List.range n).flatMap f).drop (q * m + o)).take t = ((f q).drop o).take t := by
  have h1 : ((List.range n).flatMap f).drop (q * m + o)
      = (((List.range n).flatMap f).drop (q * m)).drop o := by
    rw [List.drop_drop]
  rw [h1, flatMap_range_drop m q f n hf hq,
    List.drop_append_of_le_length (by rw [hf q hq]; omega),
    List.take_append_of_le_length (by simp only [List.length_drop, hf q hq]; omega)]

/-- Extracting whole chunk `q`. -/
theorem flatMap_chunk_extract (f : Nat → List Int) {n m q : Nat}
    (hf : ∀ i, i < n → (f i).length = m) (hq : q < n) :
    (((List.range n).flatMap f).drop (q * m)).take m = f q := by
  have := flatMap_chunk_sub f (o := 0) (t := m) hf hq (by omega)
  simpa [List.take_of_length_le (le_of_eq (hf q hq))] using this

/-- A left fold of `max` dominates the seed. -/
theorem foldl_max_seed_int : ∀ (xs : List Int) (b : Int), b ≤ xs.foldl max b := by
  intro xs
  induction xs with
  | nil => intro b; simp
  | cons x xs ih =>
    intro b
    exact le_trans (le_max_left b x) (ih (max b x))

/-- A left fold of `max` dominates every element. -/
theorem foldl_max_mem_int : ∀ (xs : List Int) (b x : Int), x ∈ xs → x ≤ xs.foldl max b := by
  intro xs
  induction xs with
  | nil => intro b x hx; cases hx
  | cons y ys ih =>
    intro b x hx
    rcases List.mem_cons.mp hx with rfl | hx'
    · exact le_trans (le_max_right b x) (foldl_max_seed_int ys (max b x))
    · exact ih (max b y) x hx'

/-- `listMaxI` dominates every element. -/
theorem listMaxI_ge {xs : List Int} {x : Int} (hx : x ∈ xs) : x ≤ listMaxI xs := by
  cases xs with
  | nil => cases hx
  | cons y ys =>
    rcases List.mem_cons.mp hx with rfl | hx'
    · exact foldl_max_seed_int ys x
    · exact foldl_max_mem_int ys y x hx'

/-- A successful `mapME` maps each input to a successful output in the list. -/
theorem mapME_ok_mem {α β : Type} {f : α → Except PyErr β} :
    ∀ {l : List α} {ys : List β}, mapME f l = .ok ys →
      ∀ x ∈ l, ∃ y, f x = .ok y ∧ y ∈ ys := by
  intro l
  induction l with
  | nil => intro ys _ x hx; cases hx
  | cons a as ih =>
    intro ys h x hx
    simp only [mapME] at h
    obtain ⟨y0, ha, h2⟩ := bindE_eq_ok h
    obtain ⟨ys0, has, h3⟩ := bindE_eq_ok h2
    obtain rfl : y0 :: ys0 = ys := by injection h3
    rcases List.mem_cons.mp hx with rfl | hx'
    · exact ⟨y0, ha, List.mem_cons_self _ _⟩
    · obtain ⟨y, hy1, hy2⟩ := ih has x hx'
      exact ⟨y, hy1, List.mem_cons_of_mem _ hy2⟩

/-- Every output of a successful `mapME` comes from some input. -/
theorem mapME_ok_mem_rev {α β : Type} {f : α → Except PyErr β} :
    ∀ {l : List α} {ys : List β}, mapME f l = .ok ys →
      ∀ y ∈ ys, ∃ x ∈ l, f x = .ok y := by
  intro l
  induction l with
  | nil =>
    intro ys h y hy
    simp only [mapME, Except.ok.injEq] at h
    subst h; cases hy
  | cons a as ih =>
    intro ys h y hy
    simp only [mapME] at h
    obtain ⟨y0, ha, h2⟩ := bindE_eq_ok h
    obtain ⟨ys0, has, h3⟩ := bindE_eq_ok h2
    obtain rfl : y0 :: ys0 = ys := by injection h3
    rcases List.mem_cons.mp hy with rfl | hy'
    · exact ⟨a, List.mem_cons_self _ _, ha⟩
    · obtain ⟨x, hx1, hx2⟩ := ih has y hy'
      exact ⟨x, List.mem_cons_of_mem _ hx1, hx2⟩

/-! ### Decimal rendering: properties of natDigits, natStr, pyInt, splitDots -/

/-- Numeric value of a digit list, most significant first. -/
def decValN (ds : List Nat) : Nat := ds.foldl (fun a d => a * 10 + d) 0

/-- `natDigitsAux` produces a non-empty block of decimal digits in front of
its accumulator, and the block's value is the input. -/
theorem natDigitsAux_spec : ∀ (fuel n : Nat) (acc : List Nat), n < fuel →
    ∃ ds, natDigitsAux fuel n acc = ds ++ acc ∧ ds ≠ [] ∧
      (∀ d ∈ ds, d < 10) ∧ decValN ds = n := by
  intro fuel
  induction fuel with
  | zero => intro n acc h; omega
  | succ fuel ih =>
    intro n acc h
    by_cases hn : n < 10
    · refine ⟨[n], by simp [natDigitsAux, hn], by simp, ?_, by simp [decValN]⟩
      intro d hd
      simp only [List.mem_singleton] at hd
      omega
    · have hrec : n / 10 < fuel := by omega
      obtain ⟨ds, hds, _, hlt, hval⟩ := ih (n / 10) (n % 10 :: acc) hrec
      refine ⟨ds ++ [n % 10], ?_, by simp, ?_, ?_⟩
      · simp [natDigitsAux, hn, hds]
      · intro d hd
        rcases List.mem_append.mp hd with h1 | h2
        · exact hlt d h1
        · simp only [List.mem_singleton] at h2; omega
      · have : decValN (ds ++ [n % 10]) = decValN ds * 10 + n % 10 := by
          simp [decValN, List.foldl_append]
        rw [this, hval]
        omega

/-- `natDigits` is a non-empty list of decimal digits whose value is `n`. -/
theorem natDigits_spec (n : Nat) :
    natDigits n ≠ [] ∧ (∀ d ∈ natDigits n, d < 10) ∧ decValN (natDigits n) = n := by
  obtain ⟨ds, hds, hne, hlt, hval⟩ := natDigitsAux_spec (n + 1) n [] (by omega)
  have hd : natDigits n = ds := by rw [natDigits, hds, List.append_nil]
  rw [hd]
  exact ⟨hne, hlt, hval⟩

/-- Decimal digit lists determine the number. -/
theorem natDigits_inj {m n : Nat} (h : natDigits m = natDigits n) : m = n := by
  have hm := (natDigits_spec m).2.2
  have hn := (natDigits_spec n).2.2
  rw [h, hn] at hm
  exact hm.symm

/-- Distinct decimal digits have distinct ASCII characters. -/
theorem digChar_inj : ∀ d1 < 10, ∀ d2 < 10, digChar d1 = digChar d2 → d1 = d2 := by decide

/-- Decimal digit characters are not dots. -/
theorem digChar_ne_dot : ∀ d < 10, digChar d ≠ '.' := by decide

/-- Decimal digit characters satisfy `Char.isDigit`. -/
theorem digChar_isDigit : ∀ d < 10, (digChar d).isDigit = true := by decide

/-- ASCII code of a decimal digit character. -/
theorem digChar_toNat : ∀ d < 10, (digChar d).toNat = 48 + d := by decide

/-- Decimal digit characters are not a minus sign. -/
theorem digChar_ne_minus : ∀ d < 10, digChar d ≠ '-' := by decide

/-- Decimal digit characters are not a plus sign. -/
theorem digChar_ne_plus : ∀ d < 10, digChar d ≠ '+' := by decide

/-- `digChar` is injective on digit lists. -/
theorem map_digChar_inj : ∀ (xs ys : List Nat), (∀ d ∈ xs, d < 10) → (∀ d ∈ ys, d < 10) →
    xs.map digChar = ys.map digChar → xs = ys := by
  intro xs
  induction xs with
  | nil =>
    intro ys _ _ h
    cases ys with
    | nil => rfl
    | cons y ys => simp at h
  | cons x xs ih =>
    intro ys hx hy h
    cases ys with
    | nil => simp at h
    | cons y ys =>
      simp only [List.map_cons, List.cons.injEq] at h
      have hxy := digChar_inj x (hx x (by simp)) y (hy y (by simp)) h.1
      rw [hxy, ih ys (fun d hd => hx d (by simp [hd])) (fun d hd => hy d (by simp [hd])) h.2]

/-- The character list of `natStr`. -/
theorem natStr_data (n : Nat) : (natStr n).data = (natDigits n).map digChar := rfl

/-- Decimal rendering is injective. -/
theorem natStr_inj {m n : Nat} (h : natStr m = natStr n) : m = n := by
  have hd : (natDigits m).map digChar = (natDigits n).map digChar := congrArg String.data h
  exact natDigits_inj
    (map_digChar_inj _ _ ((natDigits_spec m).2.1) ((natDigits_spec n).2.1) hd)

/-- Decimal renderings contain no dots. -/
theorem natStr_no_dot (n : Nat) : ∀ c ∈ (natStr n).data, c ≠ '.' := by
  intro c hc
  rw [natStr_data] at hc
  obtain ⟨d, hd, rfl⟩ := List.mem_map.mp hc
  exact digChar_ne_dot d ((natDigits_spec n).2.1 d hd)

/-- Decimal renderings are non-empty. -/
theorem natStr_ne_nil (n : Nat) : (natStr n).data ≠ [] := by
  rw [natStr_data]
  intro h
  exact (natDigits_spec n).1 (List.map_eq_nil_iff.mp h)

/-- `digitsVal` recovers the value of a rendered digit list. -/
theorem digitsVal_map_digChar (ds : List Nat) (hds : ∀ d ∈ ds, d < 10) :
    digitsVal (ds.map digChar) = decValN ds := by
  suffices h : ∀ (ds : List Nat) (a : Nat), (∀ d ∈ ds, d < 10) →
      (ds.map digChar).foldl (fun a c => a * 10 + (c.toNat - 48)) a
        = ds.foldl (fun a d => a * 10 + d) a by
    exact h ds 0 hds
  intro ds
  induction ds with
  | nil => intro a _; rfl
  | cons d ds ih =>
    intro a hds'
    simp only [List.map_cons, List.foldl_cons]
    rw [digChar_toNat d (hds' d (by simp))]
    have h48 : 48 + d - 48 = d := by omega
    rw [h48]
    exact ih (a * 10 + d) (fun x hx => hds' x (by simp [hx]))

/-- Decimal renderings pass the `isdigit` test. -/
theorem isDigitStr_natStr (n : Nat) : isDigitStr (natStr n).data = true := by
  rw [isDigitStr, Bool.and_eq_true]
  constructor
  · cases h : (natStr n).data with
    | nil => exact absurd h (natStr_ne_nil n)
    | cons c cs => simp [List.isEmpty]
  · rw [List.all_eq_true]
    intro c hc
    rw [natStr_data] at hc
    obtain ⟨d, hd, rfl⟩ := List.mem_map.mp hc
    exact digChar_isDigit d ((natDigits_spec n).2.1 d hd)

/-- `digitsVal` recovers `n` from its decimal rendering. -/
theorem digitsVal_natStr (n : Nat) : digitsVal (natStr n).data = n := by
  rw [natStr_data, digitsVal_map_digChar _ ((natDigits_spec n).2.1), (natDigits_spec n).2.2]

/-- Python `int(...)` inverts the decimal rendering. -/
theorem pyInt_natStr (n : Nat) : pyInt (natStr n).data = .ok (n : Int) := by
  obtain ⟨hne, hlt, _⟩ := natDigits_spec n
  cases hd : natDigits n with
  | nil => exact absurd hd hne
  | cons d ds =>
    have hd10 : d < 10 := by
      rw [hd] at hlt
      exact hlt d (by simp)
    have hdres : (natStr n).data = digChar d :: ds.map digChar := by
      rw [natStr_data, hd, List.map_cons]
    rw [hdres, pyInt, if_neg (digChar_ne_minus d hd10), if_neg (digChar_ne_plus d hd10)]
    rw [← List.map_cons digChar d ds, ← hd, ← natStr_data, if_pos (isDigitStr_natStr n),
      digitsVal_natStr]

/-- Splitting at dots after a dot-free block. -/
theorem splitDots_append_dotfree : ∀ (a rest : List Char), (∀ c ∈ a, c ≠ '.') →
    splitDots (a ++ '.' :: rest) = a :: splitDots rest := by
  intro a
  induction a with
  | nil =>
    intro rest _
    simp [splitDots]
  | cons c a ih =>
    intro rest ha
    have hc : c ≠ '.' := ha c (by simp)
    rw [List.cons_append, splitDots, if_neg hc, ih rest (fun x hx => ha x (by simp [hx]))]

/-- A dot-free block before the first dot is determined by the whole string. -/
theorem dotfree_append_dot_inj : ∀ (a b s t : List Char),
    (∀ c ∈ a, c ≠ '.') → (∀ c ∈ b, c ≠ '.') →
    a ++ '.' :: s = b ++ '.' :: t → a = b ∧ s = t := by
  intro a
  induction a with
  | nil =>
    intro b s t _ hb h
    cases b with
    | nil =>
      simp only [List.nil_append, List.cons.injEq] at h
      exact ⟨rfl, h.2⟩
    | cons c b =>
      simp only [List.nil_append, List.cons_append, List.cons.injEq] at h
      exact absurd h.1.symm (hb c (by simp))
  | cons c a ih =>
    intro b s t ha hb h
    cases b with
    | nil =>
      simp only [List.cons_append, List.nil_append, List.cons.injEq] at h
      exact absurd h.1 (ha c (by simp))
    | cons c' b =>
      simp only [List.cons_append, List.cons.injEq] at h
      obtain ⟨hab, hst⟩ :=
        ih b s t (fun x hx => ha x (by simp [hx])) (fun x hx => hb x (by simp [hx])) h.2
      exact ⟨by rw [h.1, hab], hst⟩

/-! ### Key-level string lemmas -/

/-- Strings with equal character lists are equal. -/
theorem stringDataExt {s t : String} (h : s.data = t.data) : s = t := by
  cases s; cases t; exact congrArg String.mk h

/-- Character list of a source layer key. -/
theorem hPre_key_data (i : Nat) (s : String) :
    (hPre i ++ s).data = 'h' :: '.' :: ((natStr i).data ++ s.data) := by
  simp only [hPre, String.data_append, List.append_assoc]
  rfl

/-- Character list of a destination layer key. -/
theorem mlxPre_key_data (i : Nat) (s : String) :
    (mlxPre i ++ s).data = "model.layers.".data ++ ((natStr i).data ++ s.data) := by
  simp only [mlxPre, String.data_append, List.append_assoc]

/-- Source layer keys start with `"h."`. -/
theorem hPre_key_isPrefix (i : Nat) (s : String) :
    "h.".data.isPrefixOf (hPre i ++ s).data = true := by
  rw [hPre_key_data]
  show List.isPrefixOf ['h', '.'] _ = true
  simp [List.isPrefixOf]

/-- Splitting a source layer key at dots: component 1 is the rendered layer
index. -/
theorem splitDots_hPre (i : Nat) (srest : List Char) :
    splitDots ('h' :: '.' :: ((natStr i).data ++ '.' :: srest))
      = ['h'] :: (natStr i).data :: splitDots srest := by
  have h1 : splitDots ((natStr i).data ++ '.' :: srest)
      = (natStr i).data :: splitDots srest :=
    splitDots_append_dotfree _ _ (natStr_no_dot i)
  simp [splitDots, h1]

/-- The layer-detection scan parses a well-formed source layer key back to
its layer index. -/
theorem layerKey_parse (i : Nat) (s : String) {srest : List Char}
    (hs : s.data = '.' :: srest) :
    pyInt ((splitDots (hPre i ++ s).data).getD 1 []) = .ok (i : Int) := by
  rw [hPre_key_data, hs, splitDots_hPre]
  simp only [List.getD_cons_succ, List.getD_cons_zero]
  exact pyInt_natStr i

/-- Destination layer keys are distinguished by layer index and suffix. -/
theorem mlxKey_inj {i j : Nat} {s t : String}
    (hs : s.data.head? = some '.') (ht : t.data.head? = some '.')
    (h : mlxPre i ++ s = mlxPre j ++ t) : i = j ∧ s = t := by
  obtain ⟨srest, hs'⟩ : ∃ rest, s.data = '.' :: rest := by
    cases hsd : s.data with
    | nil => rw [hsd] at hs; simp at hs
    | cons c cs =>
      rw [hsd] at hs
      simp only [List.head?_cons, Option.some.injEq] at hs
      exact ⟨cs, by rw [hs]⟩
  obtain ⟨trest, ht'⟩ : ∃ rest, t.data = '.' :: rest := by
    cases htd : t.data with
    | nil => rw [htd] at ht; simp at ht
    | cons c cs =>
      rw [htd] at ht
      simp only [List.head?_cons, Option.some.injEq] at ht
      exact ⟨cs, by rw [ht]⟩
  have hd := congrArg String.data h
  rw [mlxPre_key_data, mlxPre_key_data, hs', ht'] at hd
  have hd2 : (natStr i).data ++ '.' :: srest = (natStr j).data ++ '.' :: trest :=
    List.append_cancel_left hd
  obtain ⟨hij, hrest⟩ :=
    dotfree_append_dot_inj _ _ _ _ (natStr_no_dot i) (natStr_no_dot j) hd2
  refine ⟨natStr_inj (stringDataExt hij), stringDataExt ?_⟩
  rw [hs', ht', hrest]

/-- Appending to a common string on the left is cancellative. -/
theorem strAppend_left_cancel {p s t : String} (h : p ++ s = p ++ t) : s = t := by
  have hd := congrArg String.data h
  rw [String.data_append, String.data_append] at hd
  exact stringDataExt (List.append_cancel_left hd)

/-- Destination layer keys differ from the embedding key. -/
theorem mlxKey_ne_embed (i : Nat) (s : String) :
    mlxPre i ++ s ≠ "model.embed_tokens.weight" := by
  intro h
  have hd := congrArg String.data h
  rw [mlxPre_key_data] at hd
  simp at hd

/-- Destination layer keys differ from the final-norm key. -/
theorem mlxKey_ne_norm (i : Nat) (s : String) :
    mlxPre i ++ s ≠ "model.norm.weight" := by
  intro h
  have hd := congrArg String.data h
  rw [mlxPre_key_data] at hd
  simp at hd

/-- Destination layer keys differ from the LM-head key. -/
theorem mlxKey_ne_head (i : Nat) (s : String) :
    mlxPre i ++ s ≠ "lm_head.weight" := by
  intro h
  have hd := congrArg String.data h
  rw [mlxPre_key_data] at hd
  simp at hd

/-- Presence of a key is the existence of a matching entry. -/
theorem lookupKey_isSome_iff {sd : StateDict} {k : String} :
    (lookupKey sd k).isSome ↔ ∃ kv ∈ sd, kv.1 = k := by
  rw [lookupKey, Option.isSome_map']
  rw [List.find?_isSome]
  constructor
  · rintro ⟨kv, hkv, hp⟩
    exact ⟨kv, hkv, by simpa using hp⟩
  · rintro ⟨kv, hkv, hp⟩
    exact ⟨kv, hkv, by simpa using hp⟩

/-! ### Inversion lemmas for the remapper -/

/-- A successful subscript access is a successful lookup. -/
theorem getKey_ok {sd : StateDict} {k : String} {t : Tensor}
    (h : getKey sd k = .ok t) : lookupKey sd k = some t := by
  unfold getKey at h
  cases hl : lookupKey sd k with
  | none => rw [hl] at h; exact absurd h (by simp)
  | some w => rw [hl] at h; injection h with h; rw [h]

/-- A failing subscript access is a missing key. -/
theorem getKey_absent {sd : StateDict} {k : String}
    (h : lookupKey sd k = none) : getKey sd k = .error (.keyError k) := by
  unfold getKey
  rw [h]

/-- Membership in a guarded identity-copy entry. -/
theorem guardEntry_mem_iff {sd : StateDict} {src dst : String} {kv : String × Tensor} :
    kv ∈ (guardEntry sd src dst).1 ↔ kv.1 = dst ∧ lookupKey sd src = some kv.2 := by
  unfold guardEntry
  cases h : lookupKey sd src with
  | none => simp
  | some w =>
    simp only [List.mem_singleton, Option.some.injEq]
    constructor
    · rintro rfl
      exact ⟨rfl, rfl⟩
    · rintro ⟨h1, h2⟩
      exact Prod.ext h1 h2.symm

/-- The guarded entry's count equals its entry-list length. -/
theorem guardEntry_count (sd : StateDict) (src dst : String) :
    (guardEntry sd src dst).2 = (guardEntry sd src dst).1.length := by
  unfold guardEntry
  cases lookupKey sd src <;> rfl

/-- A present source key yields exactly its destination entry. -/
theorem guardEntry_present {sd : StateDict} {src : String} {w : Tensor} (dst : String)
    (h : lookupKey sd src = some w) :
    guardEntry sd src dst = ([(dst, w)], 1) := by
  unfold guardEntry
  rw [h]

/-- An absent source key yields no entry. -/
theorem guardEntry_absent {sd : StateDict} {src : String} (dst : String)
    (h : lookupKey sd src = none) :
    guardEntry sd src dst = ([], 0) := by
  unfold guardEntry
  rw [h]

/-- A successful `kv_a` translation either skipped (a source key missing) or
yielded exactly its destination entry. -/
theorem kvAEntries_cases {sd : StateDict} {i : Nat} {out}
    (h : kvAEntries sd i = .ok out) :
    out = ([], 0) ∨
      ∃ w, out = ([(mlxPre i ++ ".self_attn.kv_a_proj_with_mqa.weight", w)], 1) := by
  unfold kvAEntries at h
  cases ha : lookupKey sd (hPre i ++ ".attn.kv_proj.weight") with
  | none =>
    rw [ha] at h
    left
    injection h with h
    exact h.symm
  | some kvp =>
    cases hb : lookupKey sd (hPre i ++ ".attn.k_rope_proj.weight") with
    | none =>
      rw [ha, hb] at h
      left
      injection h with h
      exact h.symm
    | some krp =>
      rw [ha, hb] at h
      obtain ⟨head, hh, h⟩ := bindE_eq_ok h
      obtain ⟨cmb, hc, h⟩ := bindE_eq_ok h
      injection h with h
      exact Or.inr ⟨cmb, h.symm⟩

/-- With both source keys absent-free, a successful `kv_a` translation
carries the computed concatenation. -/
theorem kvAEntries_present {sd : StateDict} {i : Nat} {out} {kvp krp : Tensor}
    (h1 : lookupKey sd (hPre i ++ ".attn.kv_proj.weight") = some kvp)
    (h2 : lookupKey sd (hPre i ++ ".attn.k_rope_proj.weight") = some krp)
    (h : kvAEntries sd i = .ok out) :
    ∃ head cmb, sliceRows krp 32 = .ok head ∧ concatRows kvp head = .ok cmb ∧
      out = ([(mlxPre i ++ ".self_attn.kv_a_proj_with_mqa.weight", cmb)], 1) := by
  unfold kvAEntries at h
  rw [h1, h2] at h
  obtain ⟨head, hh, h⟩ := bindE_eq_ok h
  obtain ⟨cmb, hc, h⟩ := bindE_eq_ok h
  injection h with h
  exact ⟨head, cmb, hh, hc, h.symm⟩

/-- If either `kv_a` source key is absent the translation is skipped. -/
theorem kvAEntries_absent {sd : StateDict} {i : Nat}
    (h : lookupKey sd (hPre i ++ ".attn.kv_proj.weight") = none ∨
         lookupKey sd (hPre i ++ ".attn.k_rope_proj.weight") = none) :
    kvAEntries sd i = .ok ([], 0) := by
  unfold kvAEntries
  rcases h with h | h
  · rw [h]
  · cases ha : lookupKey sd (hPre i ++ ".attn.kv_proj.weight") with
    | none => rfl
    | some kvp => rw [h]

/-- A successful `kv_b` translation either skipped or yielded exactly its
destination entry. -/
theorem kvBEntries_cases {sd : StateDict} {i : Nat} {out}
    (h : kvBEntries sd i = .ok out) :
    out = ([], 0) ∨
      ∃ w, out = ([(mlxPre i ++ ".self_attn.kv_b_proj.weight", w)], 1) := by
  unfold kvBEntries at h
  cases ha : lookupKey sd (hPre i ++ ".attn.k_decompress.weight") with
  | none =>
    rw [ha] at h
    left
    injection h with h
    exact h.symm
  | some kd =>
    cases hb : lookupKey sd (hPre i ++ ".attn.v_decompress.weight") with
    | none =>
      rw [ha, hb] at h
      left
      injection h with h
      exact h.symm
    | some vd =>
      rw [ha, hb] at h
      obtain ⟨cmb, hc, h⟩ := bindE_eq_ok h
      injection h with h
      exact Or.inr ⟨cmb, h.symm⟩

/-- With both source keys present, a successful `kv_b` translation carries
the combined tensor. -/
theorem kvBEntries_present {sd : StateDict} {i : Nat} {out} {kd vd : Tensor}
    (h1 : lookupKey sd (hPre i ++ ".attn.k_decompress.weight") = some kd)
    (h2 : lookupKey sd (hPre i ++ ".attn.v_decompress.weight") = some vd)
    (h : kvBEntries sd i = .ok out) :
    ∃ cmb, kvBCombine kd vd = .ok cmb ∧
      out = ([(mlxPre i ++ ".self_attn.kv_b_proj.weight", cmb)], 1) := by
  unfold kvBEntries at h
  rw [h1, h2] at h
  obtain ⟨cmb, hc, h⟩ := bindE_eq_ok h
  injection h with h
  exact ⟨cmb, hc, h.symm⟩

/-- If either `kv_b` source key is absent the translation is skipped. -/
theorem kvBEntries_absent {sd : StateDict} {i : Nat}
    (h : lookupKey sd (hPre i ++ ".attn.k_decompress.weight") = none ∨
         lookupKey sd (hPre i ++ ".attn.v_decompress.weight") = none) :
    kvBEntries sd i = .ok ([], 0) := by
  unfold kvBEntries
  rcases h with h | h
  · rw [h]
  · cases ha : lookupKey sd (hPre i ++ ".attn.k_decompress.weight") with
    | none => rfl
    | some kd => rw [h]

/-- A successful shared-expert block either skipped (gate absent) or copied
all three projections. -/
theorem sharedEntries_cases {sd : StateDict} {i : Nat} {out}
    (h : sharedEntries sd i = .ok out) :
    (out = ([], 0) ∧
      lookupKey sd (hPre i ++ ".mlp.shared_expert.gate_proj.weight") = none) ∨
    ∃ g u d,
      lookupKey sd (hPre i ++ ".mlp.shared_expert.gate_proj.weight") = some g ∧
      lookupKey sd (hPre i ++ ".mlp.shared_expert.up_proj.weight") = some u ∧
      lookupKey sd (hPre i ++ ".mlp.shared_expert.down_proj.weight") = some d ∧
      out = ([(mlxPre i ++ ".mlp.shared_experts.gate_proj.weight", g),
              (mlxPre i ++ ".mlp.shared_experts.up_proj.weight", u),
              (mlxPre i ++ ".mlp.shared_experts.down_proj.weight", d)], 3) := by
  unfold sharedEntries at h
  cases hg : lookupKey sd (hPre i ++ ".mlp.shared_expert.gate_proj.weight") with
  | none =>
    rw [hg] at h
    left
    injection h with h
    exact ⟨h.symm, rfl⟩
  | some g =>
    rw [hg] at h
    obtain ⟨u, hu, h⟩ := bindE_eq_ok h
    obtain ⟨d, hd, h⟩ := bindE_eq_ok h
    injection h with h
    exact Or.inr ⟨g, u, d, rfl, getKey_ok hu, getKey_ok hd, h.symm⟩

/-- A successful stacking step either skipped (no experts collected) or
yielded exactly its destination entry. -/
theorem stackEntry_cases {dst : String} {ts : List Tensor} {out}
    (h : stackEntry dst ts = .ok out) :
    (out = ([], 0) ∧ ts = []) ∨
    ∃ s, stackT ts = .ok s ∧ out = ([(dst, s)], 1) := by
  cases ts with
  | nil =>
    unfold stackEntry at h
    left
    injection h with h
    exact ⟨h.symm, rfl⟩
  | cons t ts =>
    unfold stackEntry at h
    obtain ⟨s, hs, h⟩ := bindE_eq_ok h
    injection h with h
    exact Or.inr ⟨s, hs, h.symm⟩

/-- Inversion of one successful per-layer iteration: every effectful step
succeeded and the output is the concatenation of the translation pieces with
the matching count sum. -/
theorem layerEntries_inv {sd : StateDict} {u nE i : Nat}
    {out : List (String × Tensor) × Nat}
    (h : layerEntries sd u nE i = .ok out) :
    ∃ kvA kvB hs gates ups downs ge ue de sh,
      kvAEntries sd i = .ok kvA ∧
      kvBEntries sd i = .ok kvB ∧
      hiddenSize sd = .ok hs ∧
      collectPadded sd (expGateKey i) u hs nE = .ok gates ∧
      collectPadded sd (expUpKey i) u hs nE = .ok ups ∧
      collectPadded sd (expDownKey i) hs u nE = .ok downs ∧
      stackEntry (mlxPre i ++ ".mlp.switch_mlp.gate_proj.weight") gates = .ok ge ∧
      stackEntry (mlxPre i ++ ".mlp.switch_mlp.up_proj.weight") ups = .ok ue ∧
      stackEntry (mlxPre i ++ ".mlp.switch_mlp.down_proj.weight") downs = .ok de ∧
      sharedEntries sd i = .ok sh ∧
      out = ((guardEntry sd (hPre i ++ ".ln_1.weight") (mlxPre i ++ ".input_layernorm.weight")).1
          ++ (guardEntry sd (hPre i ++ ".ln_2.weight") (mlxPre i ++ ".post_attention_layernorm.weight")).1
          ++ (guardEntry sd (hPre i ++ ".attn.q_proj.weight") (mlxPre i ++ ".self_attn.q_a_proj.weight")).1
          ++ (guardEntry sd (hPre i ++ ".attn.q_decompress.weight") (mlxPre i ++ ".self_attn.q_b_proj.weight")).1
          ++ (guardEntry sd (hPre i ++ ".attn.kv_norm.weight") (mlxPre i ++ ".self_attn.kv_a_layernorm.weight")).1
          ++ [(mlxPre i ++ ".self_attn.q_a_layernorm.weight", onesT 192)]
          ++ kvA.1 ++ kvB.1
          ++ (guardEntry sd (hPre i ++ ".attn.o_proj.weight") (mlxPre i ++ ".self_attn.o_proj.weight")).1
          ++ (guardEntry sd (hPre i ++ ".mlp.router.weight") (mlxPre i ++ ".mlp.gate.weight")).1
          ++ [(mlxPre i ++ ".mlp.gate.e_score_correction_bias", zerosT nE)]
          ++ ge.1 ++ ue.1 ++ de.1 ++ sh.1,
        (guardEntry sd (hPre i ++ ".ln_1.weight") (mlxPre i ++ ".input_layernorm.weight")).2
          + (guardEntry sd (hPre i ++ ".ln_2.weight") (mlxPre i ++ ".post_attention_layernorm.weight")).2
          + (guardEntry sd (hPre i ++ ".attn.q_proj.weight") (mlxPre i ++ ".self_attn.q_a_proj.weight")).2
          + (guardEntry sd (hPre i ++ ".attn.q_decompress.weight") (mlxPre i ++ ".self_attn.q_b_proj.weight")).2
          + (guardEntry sd (hPre i ++ ".attn.kv_norm.weight") (mlxPre i ++ ".self_attn.kv_a_layernorm.weight")).2
          + 1 + kvA.2 + kvB.2
          + (guardEntry sd (hPre i ++ ".attn.o_proj.weight") (mlxPre i ++ ".self_attn.o_proj.weight")).2
          + (guardEntry sd (hPre i ++ ".mlp.router.weight") (mlxPre i ++ ".mlp.gate.weight")).2
          + 1 + ge.2 + ue.2 + de.2 + sh.2) := by
  unfold layerEntries at h
  obtain ⟨kvA, h1, h⟩ := bindE_eq_ok h
  obtain ⟨kvB, h2, h⟩ := bindE_eq_ok h
  obtain ⟨hs, h3, h⟩ := bindE_eq_ok h
  obtain ⟨gates, h4, h⟩ := bindE_eq_ok h
  obtain ⟨ups, h5, h⟩ := bindE_eq_ok h
  obtain ⟨downs, h6, h⟩ := bindE_eq_ok h
  obtain ⟨ge, h7, h⟩ := bindE_eq_ok h
  obtain ⟨ue, h8, h⟩ := bindE_eq_ok h
  obtain ⟨de, h9, h⟩ := bindE_eq_ok h
  obtain ⟨sh, h10, h⟩ := bindE_eq_ok h
  injection h with h
  exact ⟨kvA, kvB, hs, gates, ups, downs, ge, ue, de, sh,
    h1, h2, h3, h4, h5, h6, h7, h8, h9, h10, h.symm⟩

/-- Inversion of a successful remap: all detection steps and layer
iterations succeeded, the checkpoint is non-empty, and every field of the
result is determined. -/
theorem remap_weights_inv {sd : StateDict} {r : RemapResult}
    (h : remap_weights sd = .ok r) :
    ∃ (L : Int) (rs ss : Nat) (parts : List (List (String × Tensor) × Nat)),
      detectNumLayers sd = .ok L ∧
      detectDim0 sd "h.0.mlp.experts.0.gate_proj.weight" 512 = .ok rs ∧
      detectDim0 sd "h.0.mlp.shared_expert.gate_proj.weight" 768 = .ok ss ∧
      mapME (layerEntries sd (max rs ss) (detectNumExperts sd)) (List.range L.toNat)
        = .ok parts ∧
      sd.length ≠ 0 ∧
      r = { weights := (guardEntry sd "wte.weight" "model.embed_tokens.weight").1
              ++ parts.flatMap (·.1)
              ++ (guardEntry sd "ln_f.weight" "model.norm.weight").1
              ++ (guardEntry sd "lm_head.weight" "lm_head.weight").1
          , mapped_count := (guardEntry sd "wte.weight" "model.embed_tokens.weight").2
              + (parts.map (·.2)).sum
              + (guardEntry sd "ln_f.weight" "model.norm.weight").2
              + (guardEntry sd "lm_head.weight" "lm_head.weight").2
          , num_layers := L
          , num_experts := detectNumExperts sd
          , routed_size := rs
          , shared_size := ss
          , unified_size := max rs ss
          , padding_applied := decide (rs ≠ max rs ss) } := by
  unfold remap_weights at h
  obtain ⟨L, h1, h⟩ := bindE_eq_ok h
  obtain ⟨rs, h2, h⟩ := bindE_eq_ok h
  obtain ⟨ss, h3, h⟩ := bindE_eq_ok h
  obtain ⟨parts, h4, h⟩ := bindE_eq_ok h
  by_cases h0 : sd.length = 0
  · rw [if_pos h0] at h
    exact absurd h (by simp)
  · rw [if_neg h0] at h
    injection h with h
    exact ⟨L, rs, ss, parts, h1, h2, h3, h4, h0, h.symm⟩

/-- The collection loop never shrinks its accumulator. -/
theorem collectLoop_len_mono {sd : StateDict} {keyOf : Nat → String} {t0 t1 : Nat} :
    ∀ {js : List Nat} {acc ts : List Tensor},
      collectLoop sd keyOf t0 t1 js acc = .ok ts → acc.length ≤ ts.length := by
  intro js
  induction js with
  | nil =>
    intro acc ts h
    unfold collectLoop at h
    injection h with h
    rw [h]
  | cons j js ih =>
    intro acc ts h
    unfold collectLoop at h
    cases hl : lookupKey sd (keyOf j) with
    | none =>
      rw [hl] at h
      exact ih h
    | some w =>
      rw [hl] at h
      obtain ⟨p, hp, h⟩ := bindE_eq_ok h
      have := ih h
      simp only [List.length_append, List.length_singleton] at this
      omega

/-- If every key in the index list is present, the collection loop collects
one padded tensor per index. -/
theorem collectLoop_all_present {sd : StateDict} {keyOf : Nat → String} {t0 t1 : Nat} :
    ∀ {js : List Nat} {acc ts : List Tensor},
      (∀ j ∈ js, (lookupKey sd (keyOf j)).isSome) →
      collectLoop sd keyOf t0 t1 js acc = .ok ts →
      ts.length = acc.length + js.length := by
  intro js
  induction js with
  | nil =>
    intro acc ts _ h
    unfold collectLoop at h
    injection h with h
    rw [← h]
    simp
  | cons j js ih =>
    intro acc ts hall h
    unfold collectLoop at h
    cases hl : lookupKey sd (keyOf j) with
    | none =>
      have := hall j (by simp)
      rw [hl] at this
      simp at this
    | some w =>
      rw [hl] at h
      obtain ⟨p, hp, h⟩ := bindE_eq_ok h
      have := ih (fun x hx => hall x (by simp [hx])) h
      simp only [List.length_append, List.length_singleton] at this
      simp only [List.length_cons]
      omega

/-- If some index in the list is present, the collection result is
non-empty. -/
theorem collectLoop_ne_nil {sd : StateDict} {keyOf : Nat → String} {t0 t1 : Nat} :
    ∀ {js : List Nat} {acc ts : List Tensor} {j : Nat} {w : Tensor},
      j ∈ js → lookupKey sd (keyOf j) = some w →
      collectLoop sd keyOf t0 t1 js acc = .ok ts → ts ≠ [] := by
  intro js
  induction js with
  | nil =>
    intro acc ts j w hj
    cases hj
  | cons j' js ih =>
    intro acc ts j w hj hw h
    unfold collectLoop at h
    rcases List.mem_cons.mp hj with rfl | hj'
    · rw [hw] at h
      obtain ⟨p, hp, h⟩ := bindE_eq_ok h
      have hlen := collectLoop_len_mono h
      simp only [List.length_append, List.length_singleton] at hlen
      intro hnil
      rw [hnil] at hlen
      simp at hlen
    · cases hl : lookupKey sd (keyOf j') with
      | none =>
        rw [hl] at h
        exact ih hj' hw h
      | some w' =>
        rw [hl] at h
        obtain ⟨p, hp, h⟩ := bindE_eq_ok h
        exact ih hj' hw h

/-- Every tensor the collection loop adds beyond its accumulator is the
padding of a present source tensor. -/
theorem collectLoop_mem {sd : StateDict} {keyOf : Nat → String} {t0 t1 : Nat} :
    ∀ {js : List Nat} {acc ts : List Tensor},
      collectLoop sd keyOf t0 t1 js acc = .ok ts →
      ∀ p ∈ ts, p ∈ acc ∨ ∃ j ∈ js, ∃ w, lookupKey sd (keyOf j) = some w ∧
        pad_weight w t0 t1 = .ok p := by
  intro js
  induction js with
  | nil =>
    intro acc ts h p hp
    unfold collectLoop at h
    injection h with h
    rw [← h] at hp
    exact Or.inl hp
  | cons j js ih =>
    intro acc ts h p hp
    unfold collectLoop at h
    cases hl : lookupKey sd (keyOf j) with
    | none =>
      rw [hl] at h
      rcases ih h p hp with h1 | ⟨j', hj', w, hw, hpad⟩
      · exact Or.inl h1
      · exact Or.inr ⟨j', by simp [hj'], w, hw, hpad⟩
    | some w =>
      rw [hl] at h
      obtain ⟨q, hq, h⟩ := bindE_eq_ok h
      rcases ih h p hp with h1 | ⟨j', hj', w', hw', hpad⟩
      · rcases List.mem_append.mp h1 with h2 | h2
        · exact Or.inl h2
        · simp only [List.mem_singleton] at h2
          exact Or.inr ⟨j, by simp, w, hl, h2 ▸ hq⟩
      · exact Or.inr ⟨j', by simp [hj'], w', hw', hpad⟩

/-- The 17 destination key suffixes a layer iteration can produce. -/
def destSuffixes : List String :=
  [".input_layernorm.weight", ".post_attention_layernorm.weight",
   ".self_attn.q_a_proj.weight", ".self_attn.q_b_proj.weight",
   ".self_attn.kv_a_layernorm.weight", ".self_attn.q_a_layernorm.weight",
   ".self_attn.kv_a_proj_with_mqa.weight", ".self_attn.kv_b_proj.weight",
   ".self_attn.o_proj.weight", ".mlp.gate.weight",
   ".mlp.gate.e_score_correction_bias",
   ".mlp.switch_mlp.gate_proj.weight", ".mlp.switch_mlp.up_proj.weight",
   ".mlp.switch_mlp.down_proj.weight",
   ".mlp.shared_experts.gate_proj.weight", ".mlp.shared_experts.up_proj.weight",
   ".mlp.shared_experts.down_proj.weight"]

/-- Every destination layer-key suffix starts with a dot. -/
theorem destSuffixes_head : ∀ s ∈ destSuffixes, s.data.head? = some '.' := by decide

/-- Every entry a layer iteration produces is keyed by the layer path plus a
catalogue suffix. -/
theorem layerEntries_keys {sd : StateDict} {u nE i : Nat}
    {out : List (String × Tensor) × Nat}
    (h : layerEntries sd u nE i = .ok out) :
    ∀ kv ∈ out.1, ∃ s ∈ destSuffixes, kv.1 = mlxPre i ++ s := by
  obtain ⟨kvA, kvB, hs, gates, ups, downs, ge, ue, de, sh,
    h1, h2, h3, h4, h5, h6, h7, h8, h9, h10, rfl⟩ := layerEntries_inv h
  intro kv hkv
  simp only [List.mem_append] at hkv
  rcases hkv with (((((((((((((hkv | hkv) | hkv) | hkv) | hkv) | hkv) | hkv) | hkv)
      | hkv) | hkv) | hkv) | hkv) | hkv) | hkv) | hkv
  · exact ⟨_, by simp [destSuffixes], (guardEntry_mem_iff.mp hkv).1⟩
  · exact ⟨_, by simp [destSuffixes], (guardEntry_mem_iff.mp hkv).1⟩
  · exact ⟨_, by simp [destSuffixes], (guardEntry_mem_iff.mp hkv).1⟩
  · exact ⟨_, by simp [destSuffixes], (guardEntry_mem_iff.mp hkv).1⟩
  · exact ⟨_, by simp [destSuffixes], (guardEntry_mem_iff.mp hkv).1⟩
  · simp only [List.mem_singleton] at hkv
    exact ⟨".self_attn.q_a_layernorm.weight", by simp [destSuffixes], by rw [hkv]⟩
  · rcases kvAEntries_cases h1 with rfl | ⟨w, rfl⟩
    · cases hkv
    · simp only [List.mem_singleton] at hkv
      exact ⟨".self_attn.kv_a_proj_with_mqa.weight", by simp [destSuffixes], by rw [hkv]⟩
  · rcases kvBEntries_cases h2 with rfl | ⟨w, rfl⟩
    · cases hkv
    · simp only [List.mem_singleton] at hkv
      exact ⟨".self_attn.kv_b_proj.weight", by simp [destSuffixes], by rw [hkv]⟩
  · exact ⟨_, by simp [destSuffixes], (guardEntry_mem_iff.mp hkv).1⟩
  · exact ⟨_, by simp [destSuffixes], (guardEntry_mem_iff.mp hkv).1⟩
  · simp only [List.mem_singleton] at hkv
    exact ⟨".mlp.gate.e_score_correction_bias", by simp [destSuffixes], by rw [hkv]⟩
  · rcases stackEntry_cases h7 with ⟨rfl, _⟩ | ⟨s, _, rfl⟩
    · cases hkv
    · simp only [List.mem_singleton] at hkv
      exact ⟨".mlp.switch_mlp.gate_proj.weight", by simp [destSuffixes], by rw [hkv]⟩
  · rcases stackEntry_cases h8 with ⟨rfl, _⟩ | ⟨s, _, rfl⟩
    · cases hkv
    · simp only [List.mem_singleton] at hkv
      exact ⟨".mlp.switch_mlp.up_proj.weight", by simp [destSuffixes], by rw [hkv]⟩
  · rcases stackEntry_cases h9 with ⟨rfl, _⟩ | ⟨s, _, rfl⟩
    · cases hkv
    · simp only [List.mem_singleton] at hkv
      exact ⟨".mlp.switch_mlp.down_proj.weight", by simp [destSuffixes], by rw [hkv]⟩
  · rcases sharedEntries_cases h10 with ⟨rfl, _⟩ | ⟨g, uu, dd, _, _, _, rfl⟩
    · cases hkv
    · simp only [List.mem_cons, List.mem_singleton, List.not_mem_nil, or_false] at hkv
      rcases hkv with rfl | rfl | rfl
      · exact ⟨".mlp.shared_experts.gate_proj.weight", by simp [destSuffixes], rfl⟩
      · exact ⟨".mlp.shared_experts.up_proj.weight", by simp [destSuffixes], rfl⟩
      · exact ⟨".mlp.shared_experts.down_proj.weight", by simp [destSuffixes], rfl⟩

/-- For every layer index below the detected count, the layer iteration
succeeded and its entries all appear in the final mapping. -/
theorem remap_layer_out {sd : StateDict} {r : RemapResult}
    (h : remap_weights sd = .ok r) {i : Nat} (hi : i < r.num_layers.toNat) :
    ∃ out, layerEntries sd r.unified_size r.num_experts i = .ok out ∧
      ∀ kv ∈ out.1, kv ∈ r.weights := by
  obtain ⟨L, rs, ss, parts, h1, h2, h3, h4, h5, rfl⟩ := remap_weights_inv h
  obtain ⟨out, hout, hmem⟩ := mapME_ok_mem h4 i (List.mem_range.mpr hi)
  refine ⟨out, hout, fun kv hkv => ?_⟩
  simp only [List.mem_append]
  exact Or.inl (Or.inl (Or.inr (List.mem_flatMap.mpr ⟨out, hmem, hkv⟩)))

/-- Every entry of the final mapping comes from the embedding guard, some
layer iteration below the detected count, the final norm guard, or the head
guard. -/
theorem remap_mem_cases {sd : StateDict} {r : RemapResult}
    (h : remap_weights sd = .ok r) {kv : String × Tensor} (hkv : kv ∈ r.weights) :
    kv ∈ (guardEntry sd "wte.weight" "model.embed_tokens.weight").1 ∨
    (∃ i, i < r.num_layers.toNat ∧ ∃ out,
      layerEntries sd r.unified_size r.num_experts i = .ok out ∧ kv ∈ out.1) ∨
    kv ∈ (guardEntry sd "ln_f.weight" "model.norm.weight").1 ∨
    kv ∈ (guardEntry sd "lm_head.weight" "lm_head.weight").1 := by
  obtain ⟨L, rs, ss, parts, h1, h2, h3, h4, h5, rfl⟩ := remap_weights_inv h
  simp only [List.mem_append] at hkv
  rcases hkv with ((hkv | hkv) | hkv) | hkv
  · exact Or.inl hkv
  · obtain ⟨out, hout, hkv'⟩ := List.mem_flatMap.mp hkv
    obtain ⟨i, hi, hok⟩ := mapME_ok_mem_rev h4 out hout
    exact Or.inr (Or.inl ⟨i, List.mem_range.mp hi, out, hok, hkv'⟩)
  · exact Or.inr (Or.inr (Or.inl hkv))
  · exact Or.inr (Or.inr (Or.inr hkv))

/-! ### Characterization of the padding transform -/

/-- Lengths of a flatMap of equal-length chunks. -/
theorem flatMap_range_length (f : Nat → List Int) :
    ∀ (n m : Nat), (∀ i, i < n → (f i).length = m) →
      ((List.range n).flatMap f).length = n * m := by
  intro n
  induction n with
  | zero => intro m _; simp
  | succ n ih =>
    intro m hf
    rw [List.range_succ, List.flatMap_append]
    simp only [List.flatMap_cons, List.flatMap_nil, List.append_nil, List.length_append]
    rw [ih m (fun i hi => hf i (by omega)), hf n (by omega)]
    ring

/-- Padding is the identity when the shape already matches the target. -/
theorem pad_weight_eq_shape {w : Tensor} {t0 t1 : Nat} (h : w.shape = [t0, t1]) :
    pad_weight w t0 t1 = .ok w := by
  unfold pad_weight
  rw [if_pos h]

/-- Rank-2 padding with both target dimensions at least the current ones
appends `t1 - c` zeros to each row and then `t0 - r` zero rows. -/
theorem pad_weight_rank2_grow {w : Tensor} {r c t0 t1 : Nat}
    (hsh : w.shape = [r, c]) (hr : r ≤ t0) (hc : c ≤ t1) (hne : ¬(r = t0 ∧ c = t1)) :
    pad_weight w t0 t1 = .ok ⟨[t0, t1],
      ((List.range r).flatMap fun i =>
        (w.data.drop (i * c)).take c ++ List.replicate (t1 - c) 0)
      ++ List.replicate ((t0 - r) * t1) 0⟩ := by
  have hne2 : w.shape ≠ [t0, t1] := by
    rw [hsh]
    intro hx
    injection hx with h1 h2
    injection h2 with h2 _
    exact hne ⟨h1, h2⟩
  unfold pad_weight
  rw [if_neg hne2, hsh]
  dsimp only
  rw [if_pos (by omega : (0 : Int) < (t0 : Int) - (r : Int) ∨ (0 : Int) < (t1 : Int) - (c : Int))]
  rw [if_neg (by omega : ¬((t0 : Int) - (r : Int) < 0 ∨ (t1 : Int) - (c : Int) < 0))]
  rw [show ((t0 : Int) - (r : Int)).toNat = t0 - r by omega]
  rw [show ((t1 : Int) - (c : Int)).toNat = t1 - c by omega]
  rw [show r + (t0 - r) = t0 by omega]
  rw [show c + (t1 - c) = t1 by omega]

/-- Rank-2 padding with both target dimensions at most the current ones
returns the array unchanged. -/
theorem pad_weight_rank2_noop {w : Tensor} {r c t0 t1 : Nat}
    (hsh : w.shape = [r, c]) (hr : t0 ≤ r) (hc : t1 ≤ c) :
    pad_weight w t0 t1 = .ok w := by
  by_cases heq : w.shape = [t0, t1]
  · exact pad_weight_eq_shape heq
  · unfold pad_weight
    rw [if_neg heq, hsh]
    dsimp only
    rw [if_neg (by omega : ¬((0 : Int) < (t0 : Int) - (r : Int) ∨ (0 : Int) < (t1 : Int) - (c : Int)))]

/-- Rank-2 padding with mixed-sign pad amounts raises the `np.pad`
negative-width error. -/
theorem pad_weight_rank2_mixed {w : Tensor} {r c t0 t1 : Nat}
    (hsh : w.shape = [r, c])
    (hmix : (r < t0 ∧ t1 < c) ∨ (t0 < r ∧ c < t1)) :
    pad_weight w t0 t1 = .error (.valueError "index cannot contain negative values") := by
  have hne2 : w.shape ≠ [t0, t1] := by
    rw [hsh]
    intro hx
    injection hx with h1 h2
    injection h2 with h2 _
    omega
  unfold pad_weight
  rw [if_neg hne2, hsh]
  dsimp only
  rw [if_pos (by omega : (0 : Int) < (t0 : Int) - (r : Int) ∨ (0 : Int) < (t1 : Int) - (c : Int))]
  rw [if_pos (by omega : ((t0 : Int) - (r : Int) < 0 ∨ (t1 : Int) - (c : Int) < 0))]

/-- Rank-1 padding with a larger target appends zeros at the high end. -/
theorem pad_weight_rank1_grow {w : Tensor} {n t0 t1 : Nat}
    (hsh : w.shape = [n]) (hn : n < t0) :
    pad_weight w t0 t1 = .ok ⟨[t0], w.data ++ List.replicate (t0 - n) 0⟩ := by
  have hne2 : w.shape ≠ [t0, t1] := by
    rw [hsh]
    intro hx
    injection hx with _ h2
    injection h2
  unfold pad_weight
  rw [if_neg hne2, hsh]
  dsimp only
  rw [if_pos (by omega : (0 : Int) < (t0 : Int) - (n : Int))]
  rw [show ((t0 : Int) - (n : Int)).toNat = t0 - n by omega]
  rw [show n + (t0 - n) = t0 by omega]

/-- Rank-1 padding with a target at most the current length is the
identity. -/
theorem pad_weight_rank1_noop {w : Tensor} {n t0 t1 : Nat}
    (hsh : w.shape = [n]) (hn : t0 ≤ n) :
    pad_weight w t0 t1 = .ok w := by
  have hne2 : w.shape ≠ [t0, t1] := by
    rw [hsh]
    intro hx
    injection hx with _ h2
    injection h2
  unfold pad_weight
  rw [if_neg hne2, hsh]
  dsimp only
  rw [if_neg (by omega : ¬((0 : Int) < (t0 : Int) - (n : Int)))]

/-- Arrays of any rank other than 1 and 2 pass through unchanged. -/
theorem pad_weight_other_rank {w : Tensor} {t0 t1 : Nat}
    (h1 : w.shape.length ≠ 1) (h2 : w.shape.length ≠ 2) :
    pad_weight w t0 t1 = .ok w := by
  have hne2 : w.shape ≠ [t0, t1] := fun hx => h2 (by rw [hx]; rfl)
  unfold pad_weight
  rw [if_neg hne2]
  cases hsh : w.shape with
  | nil => rfl
  | cons a tl =>
    cases tl with
    | nil => exact absurd (by rw [hsh]; rfl) h1
    | cons b tl2 =>
      cases tl2 with
      | nil => exact absurd (by rw [hsh]; rfl) h2
      | cons c tl3 => rfl

/-! ### Claim C10 -/

/-- C10: on the empty source checkpoint the discovery functions yield layer
count 0 and expert count 0, but `remap_weights` aborts with the
division-by-zero error of the mapping-rate computation
`len(mlx_weights)/len(state_dict)`, which runs before any output is written;
so the remap operation is total only for non-empty checkpoints. -/
theorem C10_empty_divzero :
    remap_weights ([] : StateDict) = .error .zeroDivisionError ∧
    detectNumLayers ([] : StateDict) = .ok 0 ∧
    detectNumExperts ([] : StateDict) = 0 :=
  ⟨rfl, rfl, rfl⟩

/-! ### Claim C2 -/

/-- C2 counterexample: a rank-2 array of shape `[2, 1]` padded to target
`(1, 2)` has one axis above target and one below; the pad amounts are not
clamped at 0 — `np.pad` is called with a negative width and raises, so the
transform does fail, contrary to the claim. -/
theorem C2_mixed_pad_fails :
    pad_weight ⟨[2, 1], [5, 6]⟩ 1 2
      = .error (.valueError "index cannot contain negative values") := rfl

/-- C2 (amended): the clamping rule holds per axis for rank-1 arrays and for
rank-2 arrays whose two pad amounts do not have mixed signs: no-op when the
shape already matches, zero-padding at the high end when both target
dimensions are at least the current ones, unchanged when both are at most
the current ones, and other ranks always unchanged.  But on a rank-2 array
with one current dimension above target and the other strictly below,
`pad_weight` raises `ValueError` instead of clamping. -/
theorem C2_pad_clamp (w : Tensor) (t0 t1 : Nat) :
    (w.shape = [t0, t1] → pad_weight w t0 t1 = .ok w) ∧
    (∀ r c, w.shape = [r, c] → r ≤ t0 → c ≤ t1 → ¬(r = t0 ∧ c = t1) →
      pad_weight w t0 t1 = .ok ⟨[t0, t1],
        ((List.range r).flatMap fun i =>
          (w.data.drop (i * c)).take c ++ List.replicate (t1 - c) 0)
        ++ List.replicate ((t0 - r) * t1) 0⟩) ∧
    (∀ r c, w.shape = [r, c] → t0 ≤ r → t1 ≤ c → pad_weight w t0 t1 = .ok w) ∧
    (∀ r c, w.shape = [r, c] → ((r < t0 ∧ t1 < c) ∨ (t0 < r ∧ c < t1)) →
      pad_weight w t0 t1 = .error (.valueError "index cannot contain negative values")) ∧
    (∀ n, w.shape = [n] → n < t0 →
      pad_weight w t0 t1 = .ok ⟨[t0], w.data ++ List.replicate (t0 - n) 0⟩) ∧
    (∀ n, w.shape = [n] → t0 ≤ n → pad_weight w t0 t1 = .ok w) ∧
    (w.shape.length ≠ 1 → w.shape.length ≠ 2 → pad_weight w t0 t1 = .ok w) := by
  refine ⟨pad_weight_eq_shape, ?_, ?_, ?_, ?_, ?_, ?_⟩
  · intro r c hsh hr hc hne
    exact pad_weight_rank2_grow hsh hr hc hne
  · intro r c hsh hr hc
    exact pad_weight_rank2_noop hsh hr hc
  · intro r c hsh hmix
    exact pad_weight_rank2_mixed hsh hmix
  · intro n hsh hn
    exact pad_weight_rank1_grow hsh hn
  · intro n hsh hn
    exact pad_weight_rank1_noop hsh hn
  · intro h1 h2
    exact pad_weight_other_rank h1 h2

/-- C2 witness: the rank-1 clamping case evaluated at a concrete array. -/
theorem C2_pad_clamp_witness :
    pad_weight ⟨[1], [4]⟩ 3 9 = .ok ⟨[3], [4] ++ List.replicate (3 - 1) 0⟩ :=
  (C2_pad_clamp ⟨[1], [4]⟩ 3 9).2.2.2.2.1 1 rfl (by omega)

/-! ### Claim C6 -/

/-- `int(...)` either succeeds or raises the invalid-literal `ValueError`. -/
theorem pyInt_ok_or_invalid (cs : List Char) :
    (∃ v, pyInt cs = .ok v) ∨ pyInt cs = .error (.valueError "invalid literal for int") := by
  cases cs with
  | nil => exact Or.inr rfl
  | cons c rest =>
    unfold pyInt
    dsimp only
    split_ifs
    · exact Or.inl ⟨_, rfl⟩
    · exact Or.inr rfl
    · exact Or.inl ⟨_, rfl⟩
    · exact Or.inr rfl
    · exact Or.inl ⟨_, rfl⟩
    · exact Or.inr rfl

/-- A successful `mapME` preserves length. -/
theorem mapME_ok_length {α β : Type} {f : α → Except PyErr β} :
    ∀ {l : List α} {ys : List β}, mapME f l = .ok ys → ys.length = l.length := by
  intro l
  induction l with
  | nil =>
    intro ys h
    simp only [mapME, Except.ok.injEq] at h
    rw [← h]
    rfl
  | cons a as ih =>
    intro ys h
    simp only [mapME] at h
    obtain ⟨y0, ha, h2⟩ := bindE_eq_ok h
    obtain ⟨ys0, has, h3⟩ := bindE_eq_ok h2
    obtain rfl : y0 :: ys0 = ys := by injection h3
    simp only [List.length_cons, ih has]

/-- When every `h.`-prefixed key parses, the layer-index scan computes the
filterMap of the parsed indices. -/
theorem detect_parse_aux :
    ∀ sd : StateDict,
      (∀ kv ∈ sd, "h.".data.isPrefixOf kv.1.data = true →
        (pyInt ((splitDots kv.1.data).getD 1 [])).isOk = true) →
      mapME (fun kv => pyInt ((splitDots kv.1.data).getD 1 []))
          (sd.filter (fun kv => "h.".data.isPrefixOf kv.1.data))
        = .ok (sd.filterMap (fun kv =>
            if "h.".data.isPrefixOf kv.1.data then
              match pyInt ((splitDots kv.1.data).getD 1 []) with
              | .ok v => some v
              | .error _ => none
            else none)) := by
  intro sd
  induction sd with
  | nil => intro _; rfl
  | cons kv sd ih =>
    intro hall
    have ih' := ih (fun x hx => hall x (by simp [hx]))
    by_cases hp : "h.".data.isPrefixOf kv.1.data = true
    · rcases pyInt_ok_or_invalid ((splitDots kv.1.data).getD 1 []) with ⟨v, hv⟩ | herr
      · rw [List.filter_cons_of_pos (by simpa using hp), List.filterMap_cons, if_pos hp, hv]
        simp only [mapME, hv, bindE_ok, ih']
      · have := hall kv (by simp) hp
        rw [herr] at this
        simp [Except.isOk, Except.toBool] at this
    · rw [List.filter_cons_of_neg (by simpa using hp), List.filterMap_cons, if_neg hp]
      exact ih'

/-- Modelled comparison definition following the spec's words for C6: one
plus the maximal integer index over keys matching `h.<int>.*` (keys whose
second dot-component parses as an integer), or 0 when no key matches. -/
def specLayerCount (sd : StateDict) : Int :=
  match sd.filterMap (fun kv =>
      if "h.".data.isPrefixOf kv.1.data then
        match pyInt ((splitDots kv.1.data).getD 1 []) with
        | .ok v => some v
        | .error _ => none
      else none) with
  | [] => 0
  | idxs => listMaxI idxs + 1

/-- C6 counterexample: a key starting with `"h."` whose second dot-component
is not an integer does not leave the result unaffected — it makes the
detection raise `ValueError` (from `int(k.split('.')[1])`). -/
theorem C6_nonint_key_fails :
    detectNumLayers [("h.x.weight", (⟨[1], [0]⟩ : Tensor))]
      = .error (.valueError "invalid literal for int") := rfl

/-- C6 (amended): when every key starting with `"h."` has an integer second
dot-component, the detected layer count is one plus the maximum parsed index
over keys matching `h.<int>.*`, or 0 when no key starts with `"h."`; keys
not starting with `"h."` never affect the result, but a key starting with
`"h."` whose second component is not an integer raises `ValueError` rather
than being ignored. -/
theorem C6_layer_count {sd : StateDict}
    (hparse : ∀ kv ∈ sd, "h.".data.isPrefixOf kv.1.data = true →
      (pyInt ((splitDots kv.1.data).getD 1 [])).isOk = true) :
    detectNumLayers sd = .ok (specLayerCount sd) := by
  have haux := detect_parse_aux sd hparse
  unfold detectNumLayers specLayerCount
  by_cases hemp : (sd.filter (fun kv => "h.".data.isPrefixOf kv.1.data)).isEmpty
  · rw [if_pos hemp]
    have hfe : sd.filter (fun kv => "h.".data.isPrefixOf kv.1.data) = [] := by
      simpa using hemp
    rw [hfe] at haux
    have h2 : Except.ok (ε := PyErr) ([] : List Int)
        = .ok (sd.filterMap (fun kv =>
            if "h.".data.isPrefixOf kv.1.data then
              match pyInt ((splitDots kv.1.data).getD 1 []) with
              | .ok v => some v
              | .error _ => none
            else none)) := haux
    have hfm := h2.symm
    injection hfm with hfm
    rw [hfm]
  · rw [if_neg hemp, haux, bindE_ok]
    have hlen := mapME_ok_length haux
    have hflen : (sd.filter (fun kv => "h.".data.isPrefixOf kv.1.data)).length ≠ 0 := by
      intro h0
      exact hemp (by simpa using List.length_eq_zero.mp h0)
    cases hfm : sd.filterMap (fun kv =>
        if "h.".data.isPrefixOf kv.1.data then
          match pyInt ((splitDots kv.1.data).getD 1 []) with
          | .ok v => some v
          | .error _ => none
        else none) with
    | nil =>
      rw [hfm] at hlen
      simp only [List.length_nil] at hlen
      exact absurd hlen.symm hflen
    | cons x xs => rfl

/-- C6 witness: detection at a checkpoint with one parseable layer key and
one unrelated key. -/
theorem C6_layer_count_witness :
    detectNumLayers [("h.2.weight", (⟨[1], [0]⟩ : Tensor)), ("foo", ⟨[1], [0]⟩)]
      = .ok (specLayerCount [("h.2.weight", (⟨[1], [0]⟩ : Tensor)), ("foo", ⟨[1], [0]⟩)]) :=
  C6_layer_count (by decide)

/-! ### Claim C3 -/

/-- A minimal non-empty checkpoint with no transformer layers (used to
instantiate theorems about successful remaps). -/
def sdMin : StateDict := [("x.weight", ⟨[1], [0]⟩)]

/-- The remap result on `sdMin`. -/
def rMin : RemapResult :=
  match remap_weights sdMin with
  | .ok r => r
  | .error _ => default

/-- Remapping `sdMin` succeeds with result `rMin`. -/
theorem remap_sdMin : remap_weights sdMin = .ok rMin := rfl

/-- C3: whenever the remap completes, the unified intermediate size is the
maximum of the routed and shared sizes; the metadata's `padding_applied`
flag is true exactly when routed differs from unified; and the padding
applied to routed-expert tensors (`[routed, h]` for gate/up targets,
`[h, routed]` for down targets) appends zeros only at the high-index end —
whole zero rows after the original data, or zero columns after each original
row — preserving the original low-index region unchanged and truncating
nothing; in particular padding is the identity when routed equals unified. -/
theorem C3_unified_padding {sd : StateDict} {r : RemapResult}
    (h : remap_weights sd = .ok r) :
    r.unified_size = max r.routed_size r.shared_size ∧
    (r.padding_applied = true ↔ r.routed_size ≠ r.unified_size) ∧
    (∀ (hd : Nat) (w : Tensor), w.shape = [r.routed_size, hd] →
      w.data.length = r.routed_size * hd →
      pad_weight w r.unified_size hd
        = .ok ⟨[r.unified_size, hd],
            w.data ++ List.replicate ((r.unified_size - r.routed_size) * hd) 0⟩) ∧
    (∀ (hd : Nat) (w : Tensor), w.shape = [hd, r.routed_size] →
      w.data.length = hd * r.routed_size →
      ∃ p, pad_weight w hd r.unified_size = .ok p ∧
        p.shape = [hd, r.unified_size] ∧
        p.data.length = hd * r.unified_size ∧
        ∀ q, q < hd →
          (p.data.drop (q * r.unified_size)).take r.unified_size
            = (w.data.drop (q * r.routed_size)).take r.routed_size
              ++ List.replicate (r.unified_size - r.routed_size) 0) := by
  obtain ⟨L, rs, ss, parts, h1, h2, h3, h4, h5, hr⟩ := remap_weights_inv h
  have hru : r.routed_size = rs := by rw [hr]
  have hsu : r.shared_size = ss := by rw [hr]
  have huni : r.unified_size = max rs ss := by rw [hr]
  have hpad : r.padding_applied = decide (rs ≠ max rs ss) := by rw [hr]
  rw [hru, hsu, huni, hpad]
  refine ⟨rfl, by simp, ?_, ?_⟩
  · intro hd w hsh hlen
    by_cases heq : rs = max rs ss
    · have h0 : max rs ss - rs = 0 := by omega
      rw [h0]
      simp only [Nat.zero_mul, List.replicate_zero, List.append_nil]
      rw [← heq]
      rw [pad_weight_eq_shape hsh]
      obtain ⟨sh, da⟩ := w
      simp only at hsh
      rw [hsh]
    · have hgrow := pad_weight_rank2_grow hsh (le_max_left rs ss) (le_refl hd)
        (fun hx => heq hx.1)
      rw [hgrow]
      have hchunks : ((List.range rs).flatMap fun i =>
          (w.data.drop (i * hd)).take hd ++ List.replicate (hd - hd) 0)
          = w.data := by
        have h0 : hd - hd = 0 := by omega
        rw [h0]
        simp only [List.replicate_zero, List.append_nil]
        exact flatMap_range_chunks w.data rs hd hlen
      rw [hchunks]
  · intro hd w hsh hlen
    by_cases heq : rs = max rs ss
    · refine ⟨w, pad_weight_eq_shape (by rw [hsh, ← heq]), by rw [hsh, ← heq],
        by rw [hlen, ← heq], ?_⟩
      intro q hq
      have h0 : max rs ss - rs = 0 := by omega
      rw [h0, ← heq]
      simp
    · have hrs : rs ≤ max rs ss := le_max_left rs ss
      have hgrow := pad_weight_rank2_grow hsh (le_refl hd) hrs
        (fun hx => heq hx.2)
      have hrowlen : ∀ i, i < hd →
          ((w.data.drop (i * rs)).take rs ++ List.replicate (max rs ss - rs) 0).length
            = max rs ss := by
        intro i hi
        simp only [List.length_append, List.length_take, List.length_drop,
          List.length_replicate, hlen]
        have hmul : (i + 1) * rs ≤ hd * rs := Nat.mul_le_mul_right rs (by omega)
        rw [Nat.add_mul] at hmul
        omega
      have h0 : hd - hd = 0 := by omega
      refine ⟨_, hgrow, rfl, ?_, ?_⟩
      · show (((List.range hd).flatMap fun i =>
            (w.data.drop (i * rs)).take rs ++ List.replicate (max rs ss - rs) 0)
            ++ List.replicate ((hd - hd) * max rs ss) 0).length = hd * max rs ss
        rw [h0]
        simp only [Nat.zero_mul, List.replicate_zero, List.append_nil]
        exact flatMap_range_length _ hd (max rs ss) hrowlen
      · intro q hq
        show ((((List.range hd).flatMap fun i =>
            (w.data.drop (i * rs)).take rs ++ List.replicate (max rs ss - rs) 0)
            ++ List.replicate ((hd - hd) * max rs ss) 0).drop (q * max rs ss)).take (max rs ss)
            = (w.data.drop (q * rs)).take rs ++ List.replicate (max rs ss - rs) 0
        rw [h0]
        simp only [Nat.zero_mul, List.replicate_zero, List.append_nil]
        exact flatMap_chunk_extract _ hrowlen hq

/-- C3 witness: the metadata relations instantiated at `sdMin` (routed 512,
shared 768, unified 768, padding flagged). -/
theorem C3_unified_padding_witness :
    rMin.unified_size = max rMin.routed_size rMin.shared_size ∧
    (rMin.padding_applied = true ↔ rMin.routed_size ≠ rMin.unified_size) :=
  ⟨(C3_unified_padding remap_sdMin).1, (C3_unified_padding remap_sdMin).2.1⟩

/-! ### Claims C7 and C9 -/

/-- A two-entry checkpoint with one transformer layer and most source keys
absent. -/
def sdOne : StateDict := [("wte.weight", ⟨[1, 1], [0]⟩), ("h.0.ln_1.weight", ⟨[1], [0]⟩)]

/-- The remap result on `sdOne`. -/
def rOne : RemapResult :=
  match remap_weights sdOne with
  | .ok r => r
  | .error _ => default

/-- Remapping `sdOne` succeeds with result `rOne`. -/
theorem remap_sdOne : remap_weights sdOne = .ok rOne := rfl

/-- C7: for every layer index below the detected layer count, the produced
mapping contains the synthesized `q_a_layernorm.weight` as the all-ones
vector of length exactly 192 and the synthesized
`mlp.gate.e_score_correction_bias` as the all-zeros vector of length equal
to the detected expert count, whatever source keys are present. -/
theorem C7_synthesized {sd : StateDict} {r : RemapResult}
    (h : remap_weights sd = .ok r) :
    ∀ i, i < r.num_layers.toNat →
      (mlxPre i ++ ".self_attn.q_a_layernorm.weight", onesT 192) ∈ r.weights ∧
      (mlxPre i ++ ".mlp.gate.e_score_correction_bias", zerosT r.num_experts) ∈ r.weights := by
  intro i hi
  obtain ⟨out, hout, hsub⟩ := remap_layer_out h hi
  obtain ⟨kvA, kvB, hs, gates, ups, downs, ge, ue, de, sh,
    _, _, _, _, _, _, _, _, _, _, hout_eq⟩ := layerEntries_inv hout
  constructor
  · apply hsub
    rw [hout_eq]
    simp [List.mem_append]
  · apply hsub
    rw [hout_eq]
    simp [List.mem_append]

/-- C7 witness: the two synthesized tensors of layer 0 on `sdOne`. -/
theorem C7_synthesized_witness :
    (mlxPre 0 ++ ".self_attn.q_a_layernorm.weight", onesT 192) ∈ rOne.weights ∧
    (mlxPre 0 ++ ".mlp.gate.e_score_correction_bias", zerosT rOne.num_experts) ∈ rOne.weights :=
  C7_synthesized remap_sdOne 0 (by decide)

/-- C9: every identity-copy translation (embedding, the two layer norms,
`q_a`/`q_b` projections, `kv_a_layernorm`, `o_proj`, router, the
shared-expert triple, final norm, LM head) places the source array itself —
bit-identical, untransformed — at the destination key whenever its source
key(s) are present and the remap completes. -/
theorem C9_identity_copies {sd : StateDict} {r : RemapResult}
    (h : remap_weights sd = .ok r) :
    (∀ w, lookupKey sd "wte.weight" = some w →
      ("model.embed_tokens.weight", w) ∈ r.weights) ∧
    (∀ w, lookupKey sd "ln_f.weight" = some w →
      ("model.norm.weight", w) ∈ r.weights) ∧
    (∀ w, lookupKey sd "lm_head.weight" = some w →
      ("lm_head.weight", w) ∈ r.weights) ∧
    ∀ i, i < r.num_layers.toNat →
      (∀ w, lookupKey sd (hPre i ++ ".ln_1.weight") = some w →
        (mlxPre i ++ ".input_layernorm.weight", w) ∈ r.weights) ∧
      (∀ w, lookupKey sd (hPre i ++ ".ln_2.weight") = some w →
        (mlxPre i ++ ".post_attention_layernorm.weight", w) ∈ r.weights) ∧
      (∀ w, lookupKey sd (hPre i ++ ".attn.q_proj.weight") = some w →
        (mlxPre i ++ ".self_attn.q_a_proj.weight", w) ∈ r.weights) ∧
      (∀ w, lookupKey sd (hPre i ++ ".attn.q_decompress.weight") = some w →
        (mlxPre i ++ ".self_attn.q_b_proj.weight", w) ∈ r.weights) ∧
      (∀ w, lookupKey sd (hPre i ++ ".attn.kv_norm.weight") = some w →
        (mlxPre i ++ ".self_attn.kv_a_layernorm.weight", w) ∈ r.weights) ∧
      (∀ w, lookupKey sd (hPre i ++ ".attn.o_proj.weight") = some w →
        (mlxPre i ++ ".self_attn.o_proj.weight", w) ∈ r.weights) ∧
      (∀ w, lookupKey sd (hPre i ++ ".mlp.router.weight") = some w →
        (mlxPre i ++ ".mlp.gate.weight", w) ∈ r.weights) ∧
      (∀ g u d, lookupKey sd (hPre i ++ ".mlp.shared_expert.gate_proj.weight") = some g →
        lookupKey sd (hPre i ++ ".mlp.shared_expert.up_proj.weight") = some u →
        lookupKey sd (hPre i ++ ".mlp.shared_expert.down_proj.weight") = some d →
        (mlxPre i ++ ".mlp.shared_experts.gate_proj.weight", g) ∈ r.weights ∧
        (mlxPre i ++ ".mlp.shared_experts.up_proj.weight", u) ∈ r.weights ∧
        (mlxPre i ++ ".mlp.shared_experts.down_proj.weight", d) ∈ r.weights) := by
  obtain ⟨L, rs, ss, parts, h1, h2, h3, h4, h5, hr⟩ := remap_weights_inv h
  have hwts : r.weights = (guardEntry sd "wte.weight" "model.embed_tokens.weight").1
      ++ parts.flatMap (·.1)
      ++ (guardEntry sd "ln_f.weight" "model.norm.weight").1
      ++ (guardEntry sd "lm_head.weight" "lm_head.weight").1 := by rw [hr]
  refine ⟨?_, ?_, ?_, ?_⟩
  · intro w hw
    rw [hwts, guardEntry_present _ hw]
    simp
  · intro w hw
    rw [hwts, guardEntry_present _ hw]
    simp
  · intro w hw
    rw [hwts, guardEntry_present _ hw]
    simp
  · intro i hi
    obtain ⟨out, hout, hsub⟩ := remap_layer_out h hi
    obtain ⟨kvA, kvB, hs, gates, ups, downs, ge, ue, de, sh,
      hkA, hkB, hhs, hcg, hcu, hcd, hge, hue, hde, hshr, hout_eq⟩ := layerEntries_inv hout
    refine ⟨?_, ?_, ?_, ?_, ?_, ?_, ?_, ?_⟩
    · intro w hw
      apply hsub
      rw [hout_eq]
      simp [guardEntry_present _ hw]
    · intro w hw
      apply hsub
      rw [hout_eq]
      simp [guardEntry_present _ hw]
    · intro w hw
      apply hsub
      rw [hout_eq]
      simp [guardEntry_present _ hw]
    · intro w hw
      apply hsub
      rw [hout_eq]
      simp [guardEntry_present _ hw]
    · intro w hw
      apply hsub
      rw [hout_eq]
      simp [guardEntry_present _ hw]
    · intro w hw
      apply hsub
      rw [hout_eq]
      simp [guardEntry_present _ hw]
    · intro w hw
      apply hsub
      rw [hout_eq]
      simp [guardEntry_present _ hw]
    · intro g u d hg' hu' hd'
      rcases sharedEntries_cases hshr with ⟨hshEq, hnone⟩ | ⟨g2, u2, d2, hg2, hu2, hd2, hshEq⟩
      · rw [hg'] at hnone
        exact Option.noConfusion hnone
      · rw [hg'] at hg2
        rw [hu'] at hu2
        rw [hd'] at hd2
        obtain rfl : g = g2 := by injection hg2
        obtain rfl : u = u2 := by injection hu2
        obtain rfl : d = d2 := by injection hd2
        rw [hshEq] at hout_eq
        refine ⟨hsub _ ?_, hsub _ ?_, hsub _ ?_⟩ <;>
          (rw [hout_eq]; simp)

/-- C9 witness: the `ln_1` identity copy of layer 0 on `sdOne`. -/
theorem C9_identity_copies_witness :
    (mlxPre 0 ++ ".input_layernorm.weight", (⟨[1], [0]⟩ : Tensor)) ∈ rOne.weights :=
  ((C9_identity_copies remap_sdOne).2.2.2 0 (by decide)).1 ⟨[1], [0]⟩ rfl

/-! ### Claim C4 -/

/-- C4: for `k_decompress` and `v_decompress` both present with shape
`[512, 128]`, the combined `kv_b_proj` tensor has shape `[768, 128]`; for
every head `hh < 8`, its row block `[hh*96, hh*96+32)` equals rows `[0, 32)`
of head `hh` of `k_decompress` reshaped to `[8, 64, 128]` (flat row
`hh*64 + a`), and row block `[hh*96+32, hh*96+96)` equals the full 64 rows
of head `hh` of `v_decompress`; and when the remap completes with this layer
in range, that tensor sits at the `kv_b_proj` destination key. -/
theorem C4_kv_b_interleave {sd : StateDict} {i : Nat} {kd vd : Tensor}
    (hkd : lookupKey sd (hPre i ++ ".attn.k_decompress.weight") = some kd)
    (hvd : lookupKey sd (hPre i ++ ".attn.v_decompress.weight") = some vd)
    (hkds : kd.shape = [512, 128]) (hkdl : kd.data.length = 512 * 128)
    (hvds : vd.shape = [512, 128]) (hvdl : vd.data.length = 512 * 128) :
    ∃ w, kvBCombine kd vd = .ok w ∧ w.shape = [768, 128] ∧
      (∀ hh a, hh < 8 → a < 32 →
        (w.data.drop ((hh * 96 + a) * 128)).take 128
          = (kd.data.drop ((hh * 64 + a) * 128)).take 128) ∧
      (∀ hh b, hh < 8 → b < 64 →
        (w.data.drop ((hh * 96 + 32 + b) * 128)).take 128
          = (vd.data.drop ((hh * 64 + b) * 128)).take 128) ∧
      (∀ r, remap_weights sd = .ok r → i < r.num_layers.toNat →
        (mlxPre i ++ ".self_attn.kv_b_proj.weight", w) ∈ r.weights) := by
  have hkdl' : kd.data.length = 65536 := by omega
  have hvdl' : vd.data.length = 65536 := by omega
  have h1 : reshapeHeads kd 8 64 = .ok ⟨[8, 64, 128], kd.data⟩ := by
    unfold reshapeHeads
    rw [if_pos (by rw [hkdl']; norm_num)]
    rw [hkdl']
  have h2 : reshapeHeads vd 8 64 = .ok ⟨[8, 64, 128], vd.data⟩ := by
    unfold reshapeHeads
    rw [if_pos (by rw [hvdl']; norm_num)]
    rw [hvdl']
  have h3 : sliceMid ⟨[8, 64, 128], kd.data⟩ 32
      = .ok ⟨[8, 32, 128],
          (List.range 8).flatMap fun h => (kd.data.drop (h * 8192)).take 4096⟩ := by
    unfold sliceMid
    norm_num
  have h4 : concatMid
        ⟨[8, 32, 128], (List.range 8).flatMap fun h => (kd.data.drop (h * 8192)).take 4096⟩
        ⟨[8, 64, 128], vd.data⟩
      = .ok ⟨[8, 96, 128],
          (List.range 8).flatMap fun h =>
            ((((List.range 8).flatMap fun h2 =>
                (kd.data.drop (h2 * 8192)).take 4096).drop (h * 4096)).take 4096)
            ++ (vd.data.drop (h * 8192)).take 8192⟩ := by
    unfold concatMid
    norm_num
  have hknLenChunks : ∀ h2, h2 < 8 → ((kd.data.drop (h2 * 8192)).take 4096).length = 4096 := by
    intro h2 hh2
    simp only [List.length_take, List.length_drop, hkdl']
    omega
  have hw_data : ((List.range 8).flatMap fun h =>
        ((((List.range 8).flatMap fun h2 =>
            (kd.data.drop (h2 * 8192)).take 4096).drop (h * 4096)).take 4096)
        ++ (vd.data.drop (h * 8192)).take 8192)
      = ((List.range 8).flatMap fun h =>
        (kd.data.drop (h * 8192)).take 4096 ++ (vd.data.drop (h * 8192)).take 8192) := by
    apply List.flatMap_congr
    intro h hh
    rw [flatMap_chunk_extract _ hknLenChunks (List.mem_range.mp hh)]
  have hchunkLen : ∀ h, h < 8 →
      ((kd.data.drop (h * 8192)).take 4096 ++ (vd.data.drop (h * 8192)).take 8192).length
        = 12288 := by
    intro h hh
    simp only [List.length_append, List.length_take, List.length_drop, hkdl', hvdl']
    omega
  have hDlen : (((List.range 8).flatMap fun h =>
      (kd.data.drop (h * 8192)).take 4096 ++ (vd.data.drop (h * 8192)).take 8192)).length
        = 98304 := by
    rw [flatMap_range_length _ 8 12288 hchunkLen]
  have hW : kvBCombine kd vd = .ok ⟨[768, 128],
      (List.range 8).flatMap fun h =>
        (kd.data.drop (h * 8192)).take 4096 ++ (vd.data.drop (h * 8192)).take 8192⟩ := by
    unfold kvBCombine
    rw [h1, bindE_ok, h2, bindE_ok, h3, bindE_ok, h4, bindE_ok, hw_data]
    unfold reshapeCols
    rw [if_pos (by rw [hDlen]; norm_num)]
    rw [hDlen]
  refine ⟨_, hW, rfl, ?_, ?_, ?_⟩
  · intro hh a hhh ha
    show ((((List.range 8).flatMap fun h =>
        (kd.data.drop (h * 8192)).take 4096 ++ (vd.data.drop (h * 8192)).take 8192).drop
          ((hh * 96 + a) * 128)).take 128)
      = (kd.data.drop ((hh * 64 + a) * 128)).take 128
    rw [show (hh * 64 + a) * 128 = hh * 8192 + a * 128 by ring]
    rw [show (hh * 96 + a) * 128 = hh * 12288 + a * 128 by ring]
    rw [flatMap_chunk_sub _ hchunkLen hhh (by omega)]
    have hAlen := hknLenChunks hh hhh
    rw [List.drop_append_of_le_length (by rw [hAlen]; omega)]
    rw [List.take_append_of_le_length (by simp only [List.length_drop, hAlen]; omega)]
    rw [List.drop_take, List.take_take, min_eq_left (by omega), List.drop_drop]
  · intro hh b hhh hb
    show ((((List.range 8).flatMap fun h =>
        (kd.data.drop (h * 8192)).take 4096 ++ (vd.data.drop (h * 8192)).take 8192).drop
          ((hh * 96 + 32 + b) * 128)).take 128)
      = (vd.data.drop ((hh * 64 + b) * 128)).take 128
    rw [show (hh * 64 + b) * 128 = hh * 8192 + b * 128 by ring]
    rw [show (hh * 96 + 32 + b) * 128 = hh * 12288 + (4096 + b * 128) by ring]
    rw [flatMap_chunk_sub _ hchunkLen hhh (by omega)]
    have hAlen := hknLenChunks hh hhh
    rw [← List.drop_drop, List.drop_left' hAlen]
    rw [List.drop_take, List.take_take, min_eq_left (by omega), List.drop_drop]
  · intro r hrem hi
    obtain ⟨out, hout, hsub⟩ := remap_layer_out hrem hi
    obtain ⟨kvA, kvB, hs, gates, ups, downs, ge, ue, de, sh,
      hkA, hkB, _, _, _, _, _, _, _, _, hout_eq⟩ := layerEntries_inv hout
    obtain ⟨cmb, hcmb, hkvBeq⟩ := kvBEntries_present hkd hvd hkB
    rw [hW] at hcmb
    obtain rfl : (⟨[768, 128],
        (List.range 8).flatMap fun h =>
          (kd.data.drop (h * 8192)).take 4096 ++ (vd.data.drop (h * 8192)).take 8192⟩ : Tensor)
        = cmb := by injection hcmb
    apply hsub
    rw [hout_eq, hkvBeq]
    simp

/-- Concrete `[512, 128]` zero tensor for the C4 witness. -/
def kdW : Tensor := ⟨[512, 128], List.replicate 65536 0⟩

/-- A checkpoint holding only the two decompression tensors of layer 0. -/
def sdKV : StateDict :=
  [("h.0.attn.k_decompress.weight", kdW), ("h.0.attn.v_decompress.weight", kdW)]

/-- C4 witness: the interleave theorem instantiated at concrete `[512, 128]`
tensors. -/
theorem C4_kv_b_interleave_witness :
    ∃ w, kvBCombine kdW kdW = .ok w ∧ w.shape = [768, 128] ∧
      (∀ hh a, hh < 8 → a < 32 →
        (w.data.drop ((hh * 96 + a) * 128)).take 128
          = (kdW.data.drop ((hh * 64 + a) * 128)).take 128) ∧
      (∀ hh b, hh < 8 → b < 64 →
        (w.data.drop ((hh * 96 + 32 + b) * 128)).take 128
          = (kdW.data.drop ((hh * 64 + b) * 128)).take 128) ∧
      (∀ r, remap_weights sdKV = .ok r → 0 < r.num_layers.toNat →
        (mlxPre 0 ++ ".self_attn.kv_b_proj.weight", w) ∈ r.weights) :=
  @C4_kv_b_interleave sdKV 0 kdW kdW rfl rfl rfl (by norm_num [kdW]) rfl
    (by norm_num [kdW])

/-! ### Source-presence inversions and detection bounds -/

/-- A non-empty `kv_a` translation had both source keys present. -/
theorem kvAEntries_nonempty_sources {sd : StateDict} {i : Nat} {out}
    (h : kvAEntries sd i = .ok out) (hne : out.1 ≠ []) :
    (lookupKey sd (hPre i ++ ".attn.kv_proj.weight")).isSome = true ∧
    (lookupKey sd (hPre i ++ ".attn.k_rope_proj.weight")).isSome = true := by
  unfold kvAEntries at h
  cases ha : lookupKey sd (hPre i ++ ".attn.kv_proj.weight") with
  | none =>
    rw [ha] at h
    injection h with h
    rw [← h] at hne
    simp at hne
  | some kvp =>
    cases hb : lookupKey sd (hPre i ++ ".attn.k_rope_proj.weight") with
    | none =>
      rw [ha, hb] at h
      injection h with h
      rw [← h] at hne
      simp at hne
    | some krp => exact ⟨rfl, rfl⟩

/-- A non-empty `kv_b` translation had both source keys present. -/
theorem kvBEntries_nonempty_sources {sd : StateDict} {i : Nat} {out}
    (h : kvBEntries sd i = .ok out) (hne : out.1 ≠ []) :
    (lookupKey sd (hPre i ++ ".attn.k_decompress.weight")).isSome = true ∧
    (lookupKey sd (hPre i ++ ".attn.v_decompress.weight")).isSome = true := by
  unfold kvBEntries at h
  cases ha : lookupKey sd (hPre i ++ ".attn.k_decompress.weight") with
  | none =>
    rw [ha] at h
    injection h with h
    rw [← h] at hne
    simp at hne
  | some kd =>
    cases hb : lookupKey sd (hPre i ++ ".attn.v_decompress.weight") with
    | none =>
      rw [ha, hb] at h
      injection h with h
      rw [← h] at hne
      simp at hne
    | some vd => exact ⟨rfl, rfl⟩

/-- A non-empty shared-expert block had the gate key present. -/
theorem sharedEntries_nonempty_gate {sd : StateDict} {i : Nat} {out}
    (h : sharedEntries sd i = .ok out) (hne : out.1 ≠ []) :
    (lookupKey sd (hPre i ++ ".mlp.shared_expert.gate_proj.weight")).isSome = true := by
  rcases sharedEntries_cases h with ⟨hEq, _⟩ | ⟨g, u, d, hg, _, _, hEq⟩
  · rw [hEq] at hne
    simp at hne
  · rw [hg]
    rfl

/-- A successful stack has the collected count as leading dimension. -/
theorem stackT_ok_shape {ts : List Tensor} {s : Tensor} (h : stackT ts = .ok s) :
    ∃ t rest, ts = t :: rest ∧ s.shape = ts.length :: t.shape := by
  cases ts with
  | nil => simp [stackT] at h
  | cons t rest =>
    simp only [stackT] at h
    split_ifs at h
    injection h with h
    exact ⟨t, rest, rfl, by rw [← h]; simp⟩

/-- A present well-formed layer key pushes the detected layer count past its
index. -/
theorem remap_layers_gt {sd : StateDict} {r : RemapResult} {m : Nat} {s : String}
    {srest : List Char} (h : remap_weights sd = .ok r) (hs : s.data = '.' :: srest)
    (hpres : (lookupKey sd (hPre m ++ s)).isSome = true) :
    (m : Int) < r.num_layers := by
  obtain ⟨L, rs, ss, parts, h1, _, _, _, _, hr⟩ := remap_weights_inv h
  have hL : r.num_layers = L := by rw [hr]
  rw [hL]
  obtain ⟨kv, hkv, hkveq⟩ := lookupKey_isSome_iff.mp (by simpa using hpres)
  simp only [detectNumLayers] at h1
  have hkvfilter : kv ∈ sd.filter (fun x => "h.".data.isPrefixOf x.1.data) := by
    apply List.mem_filter.mpr
    refine ⟨hkv, ?_⟩
    rw [hkveq]
    simpa using hPre_key_isPrefix m s
  have hnotempty : ¬(sd.filter (fun x => "h.".data.isPrefixOf x.1.data)).isEmpty = true := by
    intro he
    rw [List.isEmpty_iff] at he
    rw [he] at hkvfilter
    cases hkvfilter
  rw [if_neg hnotempty] at h1
  obtain ⟨idxs, hmap, hok⟩ := bindE_eq_ok h1
  obtain ⟨v, hv, hvmem⟩ := mapME_ok_mem hmap kv hkvfilter
  have hparse : pyInt ((splitDots kv.1.data).getD 1 []) = .ok (m : Int) := by
    rw [hkveq]
    exact layerKey_parse m s hs
  rw [hparse] at hv
  obtain rfl : (m : Int) = v := by injection hv
  have hle := listMaxI_ge hvmem
  obtain rfl : listMaxI idxs + 1 = L := by injection hok
  omega

/-- A present layer-0 expert-gate key makes the detected expert count
positive. -/
theorem detectNumExperts_pos {sd : StateDict}
    (hpres : (lookupKey sd (expGateKey 0 0)).isSome = true) :
    1 ≤ detectNumExperts sd := by
  obtain ⟨kv, hkv, hkveq⟩ := lookupKey_isSome_iff.mp (by simpa using hpres)
  simp only [detectNumExperts]
  have hpred : (hasSubstr "mlp.experts.".data kv.1.data
      && decide ((splitDots kv.1.data).length > 4)
      && isDigitStr ((splitDots kv.1.data).getD 4 [])) = true := by
    rw [hkveq]
    decide
  have hmem : kv ∈ sd.filter (fun kv => hasSubstr "mlp.experts.".data kv.1.data
      && decide ((splitDots kv.1.data).length > 4)
      && isDigitStr ((splitDots kv.1.data).getD 4 [])) :=
    List.mem_filter.mpr ⟨hkv, hpred⟩
  cases hek : sd.filter (fun kv => hasSubstr "mlp.experts.".data kv.1.data
      && decide ((splitDots kv.1.data).length > 4)
      && isDigitStr ((splitDots kv.1.data).getD 4 [])) with
  | nil =>
    rw [hek] at hmem
    cases hmem
  | cons x xs =>
    simp only [List.map_cons]
    omega

/-! ### Guarding structure of the per-layer translations -/

/-- The presence condition the code checks before emitting the layer entry
with destination suffix `s`: `true` iff every source key guarding that
translation is present (the two synthesized tensors need no source; a
stacked expert tensor is emitted iff at least one expert of its kind was
collected; the three shared-expert outputs are guarded only on `gate_proj`,
exactly as in lines 240–248). -/
def srcPresent (sd : StateDict) (nE : Nat) (i : Nat) (s : String) : Bool :=
  if s = ".input_layernorm.weight" then
    (lookupKey sd (hPre i ++ ".ln_1.weight")).isSome
  else if s = ".post_attention_layernorm.weight" then
    (lookupKey sd (hPre i ++ ".ln_2.weight")).isSome
  else if s = ".self_attn.q_a_proj.weight" then
    (lookupKey sd (hPre i ++ ".attn.q_proj.weight")).isSome
  else if s = ".self_attn.q_b_proj.weight" then
    (lookupKey sd (hPre i ++ ".attn.q_decompress.weight")).isSome
  else if s = ".self_attn.kv_a_layernorm.weight" then
    (lookupKey sd (hPre i ++ ".attn.kv_norm.weight")).isSome
  else if s = ".self_attn.q_a_layernorm.weight" then true
  else if s = ".self_attn.kv_a_proj_with_mqa.weight" then
    (lookupKey sd (hPre i ++ ".attn.kv_proj.weight")).isSome
      && (lookupKey sd (hPre i ++ ".attn.k_rope_proj.weight")).isSome
  else if s = ".self_attn.kv_b_proj.weight" then
    (lookupKey sd (hPre i ++ ".attn.k_decompress.weight")).isSome
      && (lookupKey sd (hPre i ++ ".attn.v_decompress.weight")).isSome
  else if s = ".self_attn.o_proj.weight" then
    (lookupKey sd (hPre i ++ ".attn.o_proj.weight")).isSome
  else if s = ".mlp.gate.weight" then
    (lookupKey sd (hPre i ++ ".mlp.router.weight")).isSome
  else if s = ".mlp.gate.e_score_correction_bias" then true
  else if s = ".mlp.switch_mlp.gate_proj.weight" then
    (List.range nE).any (fun j => (lookupKey sd (expGateKey i j)).isSome)
  else if s = ".mlp.switch_mlp.up_proj.weight" then
    (List.range nE).any (fun j => (lookupKey sd (expUpKey i j)).isSome)
  else if s = ".mlp.switch_mlp.down_proj.weight" then
    (List.range nE).any (fun j => (lookupKey sd (expDownKey i j)).isSome)
  else (lookupKey sd (hPre i ++ ".mlp.shared_expert.gate_proj.weight")).isSome

/-- Every emitted layer entry's key is the layer path plus a catalogue
suffix, and the source keys guarding that suffix's translation were all
present. -/
theorem layerEntries_src_of_mem {sd : StateDict} {u nE i : Nat}
    {out : List (String × Tensor) × Nat}
    (h : layerEntries sd u nE i = .ok out) :
    ∀ kv ∈ out.1, ∃ s ∈ destSuffixes, kv.1 = mlxPre i ++ s ∧
      srcPresent sd nE i s = true := by
  obtain ⟨kvA, kvB, hs, gates, ups, downs, ge, ue, de, sh,
    h1, h2, h3, h4, h5, h6, h7, h8, h9, h10, rfl⟩ := layerEntries_inv h
  intro kv hkv
  simp only [List.mem_append] at hkv
  rcases hkv with (((((((((((((hkv | hkv) | hkv) | hkv) | hkv) | hkv) | hkv) | hkv)
      | hkv) | hkv) | hkv) | hkv) | hkv) | hkv) | hkv
  · obtain ⟨hk, hw⟩ := guardEntry_mem_iff.mp hkv
    exact ⟨".input_layernorm.weight", by simp [destSuffixes], hk,
      by simp [srcPresent, hw]⟩
  · obtain ⟨hk, hw⟩ := guardEntry_mem_iff.mp hkv
    exact ⟨".post_attention_layernorm.weight", by simp [destSuffixes], hk,
      by simp [srcPresent, hw]⟩
  · obtain ⟨hk, hw⟩ := guardEntry_mem_iff.mp hkv
    exact ⟨".self_attn.q_a_proj.weight", by simp [destSuffixes], hk,
      by simp [srcPresent, hw]⟩
  · obtain ⟨hk, hw⟩ := guardEntry_mem_iff.mp hkv
    exact ⟨".self_attn.q_b_proj.weight", by simp [destSuffixes], hk,
      by simp [srcPresent, hw]⟩
  · obtain ⟨hk, hw⟩ := guardEntry_mem_iff.mp hkv
    exact ⟨".self_attn.kv_a_layernorm.weight", by simp [destSuffixes], hk,
      by simp [srcPresent, hw]⟩
  · simp only [List.mem_singleton] at hkv
    exact ⟨".self_attn.q_a_layernorm.weight", by simp [destSuffixes], by rw [hkv],
      by simp [srcPresent]⟩
  · have hne : kvA.1 ≠ [] := by
      intro hn
      rw [hn] at hkv
      cases hkv
    obtain ⟨hpa, hpb⟩ := kvAEntries_nonempty_sources h1 hne
    rcases kvAEntries_cases h1 with rfl | ⟨w, hw⟩
    · cases hkv
    · rw [hw] at hkv
      simp only [List.mem_singleton] at hkv
      exact ⟨".self_attn.kv_a_proj_with_mqa.weight", by simp [destSuffixes], by rw [hkv],
        by simp [srcPresent, hpa, hpb]⟩
  · have hne : kvB.1 ≠ [] := by
      intro hn
      rw [hn] at hkv
      cases hkv
    obtain ⟨hpa, hpb⟩ := kvBEntries_nonempty_sources h2 hne
    rcases kvBEntries_cases h2 with rfl | ⟨w, hw⟩
    · cases hkv
    · rw [hw] at hkv
      simp only [List.mem_singleton] at hkv
      exact ⟨".self_attn.kv_b_proj.weight", by simp [destSuffixes], by rw [hkv],
        by simp [srcPresent, hpa, hpb]⟩
  · obtain ⟨hk, hw⟩ := guardEntry_mem_iff.mp hkv
    exact ⟨".self_attn.o_proj.weight", by simp [destSuffixes], hk,
      by simp [srcPresent, hw]⟩
  · obtain ⟨hk, hw⟩ := guardEntry_mem_iff.mp hkv
    exact ⟨".mlp.gate.weight", by simp [destSuffixes], hk,
      by simp [srcPresent, hw]⟩
  · simp only [List.mem_singleton] at hkv
    exact ⟨".mlp.gate.e_score_correction_bias", by simp [destSuffixes], by rw [hkv],
      by simp [srcPresent]⟩
  · rcases stackEntry_cases h7 with ⟨rfl, _⟩ | ⟨s, hstack, hge⟩
    · cases hkv
    · rw [hge] at hkv
      simp only [List.mem_singleton] at hkv
      obtain ⟨t, rest, hgeq, _⟩ := stackT_ok_shape hstack
      have h4' : collectLoop sd (expGateKey i) u hs (List.range nE) [] = .ok gates := h4
      have ht : t ∈ gates := by rw [hgeq]; simp
      rcases collectLoop_mem h4' t ht with hx | ⟨j, hj, w, hw, _⟩
      · cases hx
      · have hany : (List.range nE).any
            (fun j => (lookupKey sd (expGateKey i j)).isSome) = true :=
          List.any_eq_true.mpr ⟨j, hj, by rw [hw]; rfl⟩
        exact ⟨".mlp.switch_mlp.gate_proj.weight", by simp [destSuffixes], by rw [hkv],
          by simp [srcPresent, hany]⟩
  · rcases stackEntry_cases h8 with ⟨rfl, _⟩ | ⟨s, hstack, hue⟩
    · cases hkv
    · rw [hue] at hkv
      simp only [List.mem_singleton] at hkv
      obtain ⟨t, rest, hueq, _⟩ := stackT_ok_shape hstack
      have h5' : collectLoop sd (expUpKey i) u hs (List.range nE) [] = .ok ups := h5
      have ht : t ∈ ups := by rw [hueq]; simp
      rcases collectLoop_mem h5' t ht with hx | ⟨j, hj, w, hw, _⟩
      · cases hx
      · have hany : (List.range nE).any
            (fun j => (lookupKey sd (expUpKey i j)).isSome) = true :=
          List.any_eq_true.mpr ⟨j, hj, by rw [hw]; rfl⟩
        exact ⟨".mlp.switch_mlp.up_proj.weight", by simp [destSuffixes], by rw [hkv],
          by simp [srcPresent, hany]⟩
  · rcases stackEntry_cases h9 with ⟨rfl, _⟩ | ⟨s, hstack, hde⟩
    · cases hkv
    · rw [hde] at hkv
      simp only [List.mem_singleton] at hkv
      obtain ⟨t, rest, hdeq, _⟩ := stackT_ok_shape hstack
      have h6' : collectLoop sd (expDownKey i) hs u (List.range nE) [] = .ok downs := h6
      have ht : t ∈ downs := by rw [hdeq]; simp
      rcases collectLoop_mem h6' t ht with hx | ⟨j, hj, w, hw, _⟩
      · cases hx
      · have hany : (List.range nE).any
            (fun j => (lookupKey sd (expDownKey i j)).isSome) = true :=
          List.any_eq_true.mpr ⟨j, hj, by rw [hw]; rfl⟩
        exact ⟨".mlp.switch_mlp.down_proj.weight", by simp [destSuffixes], by rw [hkv],
          by simp [srcPresent, hany]⟩
  · rcases sharedEntries_cases h10 with ⟨rfl, _⟩ | ⟨g, uu, dd, hg, _, _, hsh⟩
    · cases hkv
    · rw [hsh] at hkv
      simp only [List.mem_cons, List.mem_singleton, List.not_mem_nil, or_false] at hkv
      rcases hkv with rfl | rfl | rfl
      · exact ⟨".mlp.shared_experts.gate_proj.weight", by simp [destSuffixes], rfl,
          by simp [srcPresent, hg]⟩
      · exact ⟨".mlp.shared_experts.up_proj.weight", by simp [destSuffixes], rfl,
          by simp [srcPresent, hg]⟩
      · exact ⟨".mlp.shared_experts.down_proj.weight", by simp [destSuffixes], rfl,
          by simp [srcPresent, hg]⟩

/-- The `kv_a` translation's count equals its entry-list length. -/
theorem kvAEntries_len {sd : StateDict} {i : Nat} {out}
    (h : kvAEntries sd i = .ok out) : out.2 = out.1.length := by
  rcases kvAEntries_cases h with rfl | ⟨w, rfl⟩ <;> rfl

/-- The `kv_b` translation's count equals its entry-list length. -/
theorem kvBEntries_len {sd : StateDict} {i : Nat} {out}
    (h : kvBEntries sd i = .ok out) : out.2 = out.1.length := by
  rcases kvBEntries_cases h with rfl | ⟨w, rfl⟩ <;> rfl

/-- The stacking step's count equals its entry-list length. -/
theorem stackEntry_len {dst : String} {ts : List Tensor} {out}
    (h : stackEntry dst ts = .ok out) : out.2 = out.1.length := by
  rcases stackEntry_cases h with ⟨rfl, _⟩ | ⟨s, _, rfl⟩ <;> rfl

/-- The shared-expert block's count equals its entry-list length. -/
theorem sharedEntries_len {sd : StateDict} {i : Nat} {out}
    (h : sharedEntries sd i = .ok out) : out.2 = out.1.length := by
  rcases sharedEntries_cases h with ⟨rfl, _⟩ | ⟨g, u, d, _, _, _, rfl⟩ <;> rfl

/-- One layer iteration's count equals the number of entries it emits. -/
theorem layerEntries_len {sd : StateDict} {u nE i : Nat} {out}
    (h : layerEntries sd u nE i = .ok out) : out.2 = out.1.length := by
  obtain ⟨kvA, kvB, hs, gates, ups, downs, ge, ue, de, sh,
    h1, h2, h3, h4, h5, h6, h7, h8, h9, h10, rfl⟩ := layerEntries_inv h
  have ha := kvAEntries_len h1
  have hb := kvBEntries_len h2
  have hg := stackEntry_len h7
  have hu := stackEntry_len h8
  have hd := stackEntry_len h9
  have hss := sharedEntries_len h10
  simp only [List.length_append, List.length_singleton]
  rw [guardEntry_count, guardEntry_count, guardEntry_count, guardEntry_count,
    guardEntry_count, guardEntry_count, guardEntry_count]
  omega

/-- Summing per-part counts that each match their entry-list length gives the
length of the concatenated entries. -/
theorem counts_sum_len (l : List (List (String × Tensor) × Nat))
    (h : ∀ p ∈ l, p.2 = p.1.length) :
    (l.map (·.2)).sum = (l.flatMap (·.1)).length := by
  induction l with
  | nil => rfl
  | cons p ps ih =>
    simp only [List.map_cons, List.sum_cons, List.flatMap_cons, List.length_append]
    rw [h p (by simp), ih (fun q hq => h q (by simp [hq]))]

/-- **C1.** Amended guarded-omission property: on any successful run the
mapped-count equals the number of emitted entries (it is not incremented for
skipped translations), an absent `wte.weight` / `ln_f.weight` /
`lm_head.weight` source leaves its destination key out of the mapping, and a
per-layer translation whose guarding source keys are absent leaves its
destination key out of the mapping for every layer.  (The unamended claim —
that absence of a source key can never raise an error — is refuted by
`C1_unguarded_keyerror`: the loop body reads `state_dict["wte.weight"]`
unguarded, and the shared-expert block guards only `gate_proj`.) -/
theorem C1_guarded_omission {sd : StateDict} {r : RemapResult}
    (h : remap_weights sd = .ok r) :
    r.mapped_count = r.weights.length ∧
    (lookupKey sd "wte.weight" = none →
      ∀ kv ∈ r.weights, kv.1 ≠ "model.embed_tokens.weight") ∧
    (lookupKey sd "ln_f.weight" = none →
      ∀ kv ∈ r.weights, kv.1 ≠ "model.norm.weight") ∧
    (lookupKey sd "lm_head.weight" = none →
      ∀ kv ∈ r.weights, kv.1 ≠ "lm_head.weight") ∧
    (∀ i : Nat, ∀ s ∈ destSuffixes, srcPresent sd r.num_experts i s = false →
      ∀ kv ∈ r.weights, kv.1 ≠ mlxPre i ++ s) := by
  refine ⟨?_, ?_, ?_, ?_, ?_⟩
  · obtain ⟨L, rs, ss, parts, h1, h2, h3, h4, h5, rfl⟩ := remap_weights_inv h
    have hparts : ∀ p ∈ parts, p.2 = p.1.length := by
      intro p hp
      obtain ⟨i, _, hok⟩ := mapME_ok_mem_rev h4 p hp
      exact layerEntries_len hok
    simp only [List.length_append]
    rw [guardEntry_count, guardEntry_count, guardEntry_count, counts_sum_len parts hparts]
  · intro habs kv hkv hkey
    rcases remap_mem_cases h hkv with hm | ⟨i, hi, out, hout, hm⟩ | hm | hm
    · rw [guardEntry_absent _ habs] at hm
      simp at hm
    · obtain ⟨s, hsmem, hks⟩ := layerEntries_keys hout kv hm
      rw [hks] at hkey
      exact mlxKey_ne_embed i s hkey
    · obtain ⟨hk, _⟩ := guardEntry_mem_iff.mp hm
      rw [hk] at hkey
      exact absurd hkey (by decide)
    · obtain ⟨hk, _⟩ := guardEntry_mem_iff.mp hm
      rw [hk] at hkey
      exact absurd hkey (by decide)
  · intro habs kv hkv hkey
    rcases remap_mem_cases h hkv with hm | ⟨i, hi, out, hout, hm⟩ | hm | hm
    · obtain ⟨hk, _⟩ := guardEntry_mem_iff.mp hm
      rw [hk] at hkey
      exact absurd hkey (by decide)
    · obtain ⟨s, hsmem, hks⟩ := layerEntries_keys hout kv hm
      rw [hks] at hkey
      exact mlxKey_ne_norm i s hkey
    · rw [guardEntry_absent _ habs] at hm
      simp at hm
    · obtain ⟨hk, _⟩ := guardEntry_mem_iff.mp hm
      rw [hk] at hkey
      exact absurd hkey (by decide)
  · intro habs kv hkv hkey
    rcases remap_mem_cases h hkv with hm | ⟨i, hi, out, hout, hm⟩ | hm | hm
    · obtain ⟨hk, _⟩ := guardEntry_mem_iff.mp hm
      rw [hk] at hkey
      exact absurd hkey (by decide)
    · obtain ⟨s, hsmem, hks⟩ := layerEntries_keys hout kv hm
      rw [hks] at hkey
      exact mlxKey_ne_head i s hkey
    · obtain ⟨hk, _⟩ := guardEntry_mem_iff.mp hm
      rw [hk] at hkey
      exact absurd hkey (by decide)
    · rw [guardEntry_absent _ habs] at hm
      simp at hm
  · intro i s hsmem hfalse kv hkv hkey
    rcases remap_mem_cases h hkv with hm | ⟨i', hi', out, hout, hm⟩ | hm | hm
    · obtain ⟨hk, _⟩ := guardEntry_mem_iff.mp hm
      rw [hk] at hkey
      exact mlxKey_ne_embed i s hkey.symm
    · obtain ⟨s', hs'mem, hks', hpres⟩ := layerEntries_src_of_mem hout kv hm
      rw [hks'] at hkey
      obtain ⟨rfl, rfl⟩ :=
        mlxKey_inj (destSuffixes_head s' hs'mem) (destSuffixes_head s hsmem) hkey
      rw [hpres] at hfalse
      simp at hfalse
    · obtain ⟨hk, _⟩ := guardEntry_mem_iff.mp hm
      rw [hk] at hkey
      exact mlxKey_ne_norm i s hkey.symm
    · obtain ⟨hk, _⟩ := guardEntry_mem_iff.mp hm
      rw [hk] at hkey
      exact mlxKey_ne_head i s hkey.symm

/-- **C1 counterexample.** A checkpoint with one layer key and no
`wte.weight`: the loop body's unguarded `state_dict["wte.weight"]`
(line 200) raises `KeyError` instead of silently omitting a destination
key, so not every translation is guarded. -/
theorem C1_unguarded_keyerror :
    remap_weights [("h.0.ln_1.weight", ⟨[1], [0]⟩)]
      = .error (.keyError "wte.weight") := rfl

/-- Witness: the amended C1 theorem applied to the concrete checkpoint
`sdOne`, whose `ln_f.weight` source is absent. -/
theorem C1_guarded_omission_witness :
    rOne.mapped_count = rOne.weights.length ∧
    ∀ kv ∈ rOne.weights, kv.1 ≠ "model.norm.weight" :=
  ⟨(C1_guarded_omission remap_sdOne).1,
   (C1_guarded_omission remap_sdOne).2.2.1 rfl⟩

/-! ### Lower bound on the detected expert count -/

/-- A pattern is a substring of any list it prefixes. -/
theorem hasSubstr_self_append (pat b : List Char) :
    hasSubstr pat (pat ++ b) = true := by
  cases pat with
  | nil =>
    cases b with
    | nil => rfl
    | cons c rest => simp [hasSubstr, List.isPrefixOf]
  | cons p ps =>
    have h1 : (p :: ps).isPrefixOf ((p :: ps) ++ b) = true :=
      List.isPrefixOf_iff_prefix.mpr (List.prefix_append _ _)
    simp only [List.cons_append] at h1
    simp [hasSubstr, h1]

/-- Substring containment is preserved by prepending. -/
theorem hasSubstr_append_left (pat : List Char) :
    ∀ (a b : List Char), hasSubstr pat b = true → hasSubstr pat (a ++ b) = true := by
  intro a
  induction a with
  | nil =>
    intro b h
    simpa using h
  | cons c cs ih =>
    intro b h
    simp only [List.cons_append, hasSubstr]
    show (pat.isPrefixOf (c :: (cs ++ b)) || hasSubstr pat (cs ++ b)) = true
    rw [ih b h, Bool.or_true]

/-- Character list of a routed-expert source key with arbitrary projection
suffix. -/
theorem expKey_data (i j : Nat) (t : String) :
    (hPre i ++ ".mlp.experts." ++ natStr j ++ t).data
      = 'h' :: '.' :: ((natStr i).data ++ '.' ::
        ("mlp.experts.".data ++ ((natStr j).data ++ t.data))) := by
  simp only [String.data_append, List.append_assoc]
  rfl

/-- Splitting a routed-expert source key at dots: component 4 is the rendered
expert index. -/
theorem splitDots_expKey (i j : Nat) (t : String) {trest : List Char}
    (ht : t.data = '.' :: trest) :
    splitDots (hPre i ++ ".mlp.experts." ++ natStr j ++ t).data
      = ['h'] :: (natStr i).data :: "mlp".data :: "experts".data
        :: (natStr j).data :: splitDots trest := by
  rw [expKey_data, ht, splitDots_hPre]
  have e3 : splitDots ((natStr j).data ++ '.' :: trest)
      = (natStr j).data :: splitDots trest :=
    splitDots_append_dotfree _ _ (natStr_no_dot j)
  have e2 : splitDots ("experts".data ++ '.' :: ((natStr j).data ++ '.' :: trest))
      = "experts".data :: splitDots ((natStr j).data ++ '.' :: trest) :=
    splitDots_append_dotfree _ _ (by decide)
  have e1 : splitDots ("mlp".data ++ '.' :: ("experts".data ++ '.' ::
        ((natStr j).data ++ '.' :: trest)))
      = "mlp".data :: splitDots ("experts".data ++ '.' ::
        ((natStr j).data ++ '.' :: trest)) :=
    splitDots_append_dotfree _ _ (by decide)
  show ['h'] :: (natStr i).data :: splitDots ("mlp".data ++ '.' ::
    ("experts".data ++ '.' :: ((natStr j).data ++ '.' :: trest))) = _
  rw [e1, e2, e3]

/-- Seeded left fold of `max` over naturals dominates its seed. -/
theorem foldl_max_seed_nat : ∀ (xs : List Nat) (b : Nat), b ≤ xs.foldl max b := by
  intro xs
  induction xs with
  | nil => intro b; exact Nat.le_refl b
  | cons x xs ih =>
    intro b
    calc b ≤ max b x := Nat.le_max_left b x
    _ ≤ (xs.foldl max (max b x)) := ih (max b x)

/-- Seeded left fold of `max` over naturals dominates every member. -/
theorem foldl_max_mem_nat : ∀ (xs : List Nat) (b x : Nat), x ∈ xs →
    x ≤ xs.foldl max b := by
  intro xs
  induction xs with
  | nil =>
    intro b x hx
    cases hx
  | cons y ys ih =>
    intro b x hx
    rcases List.mem_cons.mp hx with rfl | hx'
    · calc x ≤ max b x := Nat.le_max_right b x
      _ ≤ ys.foldl max (max b x) := foldl_max_seed_nat ys (max b x)
    · exact ih (max b y) x hx'

/-- A present routed-expert key with index `j` pushes the detected expert
count past `j`. -/
theorem detectNumExperts_ge {sd : StateDict} {i j : Nat} {t : String}
    {trest : List Char} (ht : t.data = '.' :: trest)
    (hpres : (lookupKey sd (hPre i ++ ".mlp.experts." ++ natStr j ++ t)).isSome = true) :
    j + 1 ≤ detectNumExperts sd := by
  obtain ⟨kv, hkv, hkveq⟩ := lookupKey_isSome_iff.mp (by simpa using hpres)
  have hdata : splitDots kv.1.data = ['h'] :: (natStr i).data :: "mlp".data
      :: "experts".data :: (natStr j).data :: splitDots trest := by
    rw [hkveq]
    exact splitDots_expKey i j t ht
  have hsub : hasSubstr "mlp.experts.".data kv.1.data = true := by
    rw [hkveq, expKey_data, ht]
    have h0 : hasSubstr "mlp.experts.".data
        (('h' :: '.' :: ((natStr i).data ++ ['.'])) ++
          ("mlp.experts.".data ++ ((natStr j).data ++ '.' :: trest))) = true :=
      hasSubstr_append_left _ _ _ (hasSubstr_self_append _ _)
    simpa using h0
  have hlen : (splitDots kv.1.data).length > 4 := by
    rw [hdata]
    simp only [List.length_cons]
    omega
  have hdig : isDigitStr ((splitDots kv.1.data).getD 4 []) = true := by
    rw [hdata]
    simp only [List.getD_cons_succ, List.getD_cons_zero]
    exact isDigitStr_natStr j
  have hpred : (hasSubstr "mlp.experts.".data kv.1.data
      && decide ((splitDots kv.1.data).length > 4)
      && isDigitStr ((splitDots kv.1.data).getD 4 [])) = true := by
    rw [hsub, hdig]
    simp [hlen]
  have hmem : kv ∈ sd.filter (fun kv => hasSubstr "mlp.experts.".data kv.1.data
      && decide ((splitDots kv.1.data).length > 4)
      && isDigitStr ((splitDots kv.1.data).getD 4 [])) :=
    List.mem_filter.mpr ⟨hkv, hpred⟩
  have hval : digitsVal ((splitDots kv.1.data).getD 4 []) = j := by
    rw [hdata]
    simp only [List.getD_cons_succ, List.getD_cons_zero]
    exact digitsVal_natStr j
  simp only [detectNumExperts]
  cases hek : sd.filter (fun kv => hasSubstr "mlp.experts.".data kv.1.data
      && decide ((splitDots kv.1.data).length > 4)
      && isDigitStr ((splitDots kv.1.data).getD 4 [])) with
  | nil =>
    rw [hek] at hmem
    cases hmem
  | cons x xs =>
    rw [hek] at hmem
    simp only [List.map_cons]
    have hjmem : j ∈ (x :: xs).map
        (fun kv => digitsVal ((splitDots kv.1.data).getD 4 [])) := by
      rw [← hval]
      exact List.mem_map_of_mem _ hmem
    simp only [List.map_cons, List.mem_cons] at hjmem
    rcases hjmem with heq | hmem2
    · have := foldl_max_seed_nat
        (xs.map (fun kv => digitsVal ((splitDots kv.1.data).getD 4 [])))
        (digitsVal ((splitDots x.1.data).getD 4 []))
      omega
    · have := foldl_max_mem_nat
        (xs.map (fun kv => digitsVal ((splitDots kv.1.data).getD 4 [])))
        (digitsVal ((splitDots x.1.data).getD 4 [])) j hmem2
      omega

/-- The collection loop adds exactly one tensor per present index. -/
theorem collectLoop_count {sd : StateDict} {keyOf : Nat → String} {t0 t1 : Nat} :
    ∀ {js : List Nat} {acc ts : List Tensor},
      collectLoop sd keyOf t0 t1 js acc = .ok ts →
      ts.length = acc.length
        + (js.filter (fun j => (lookupKey sd (keyOf j)).isSome)).length := by
  intro js
  induction js with
  | nil =>
    intro acc ts h
    unfold collectLoop at h
    injection h with h
    rw [← h]
    simp
  | cons j js ih =>
    intro acc ts h
    unfold collectLoop at h
    cases hl : lookupKey sd (keyOf j) with
    | none =>
      rw [hl] at h
      have hlen := ih h
      rw [List.filter_cons]
      simp [hl]
      omega
    | some w =>
      rw [hl] at h
      obtain ⟨p, hp, h⟩ := bindE_eq_ok h
      have hlen := ih h
      simp only [List.length_append, List.length_singleton] at hlen
      rw [List.filter_cons]
      simp [hl]
      omega

/-- Length of a filtered range whose predicate holds exactly below `E`. -/
theorem range_filter_len {p : Nat → Bool} {E : Nat} :
    ∀ n, (∀ j, j < n → (p j = true ↔ j < E)) →
      ((List.range n).filter p).length = min E n := by
  intro n
  induction n with
  | zero =>
    intro _
    simp
  | succ n ih =>
    intro hp
    rw [List.range_succ, List.filter_append, List.length_append,
      ih (fun j hj => hp j (by omega))]
    by_cases hn : n < E
    · have hpn : p n = true := (hp n (by omega)).mpr hn
      simp [hpn]
      omega
    · have hpn : p n = false := by
        cases hq : p n
        · rfl
        · exact absurd ((hp n (by omega)).mp hq) hn
      simp [hpn]
      omega

/-! ### Complete layers produce the full destination catalogue -/

/-- The recorded expert count is the detected one. -/
theorem remap_num_experts {sd : StateDict} {r : RemapResult}
    (h : remap_weights sd = .ok r) : r.num_experts = detectNumExperts sd := by
  obtain ⟨L, rs, ss, parts, _, _, _, _, _, rfl⟩ := remap_weights_inv h
  rfl

/-- With every catalogue source key of layer `i` present for an expert count
`E ≥ 1`, every destination layer key of the catalogue appears in the
produced mapping. -/
theorem layer_dest_present {sd : StateDict} {r : RemapResult} {E : Nat}
    (h : remap_weights sd = .ok r) {i : Nat} (hi : i < r.num_layers.toNat)
    (hsrc : ∀ k ∈ srcLayerKeys E i, (lookupKey sd k).isSome) (hE : 1 ≤ E) :
    ∀ s ∈ destSuffixes, ∃ t, (mlxPre i ++ s, t) ∈ r.weights := by
  obtain ⟨out, hout, hsub⟩ := remap_layer_out h hi
  obtain ⟨kvA, kvB, hs, gates, ups, downs, ge, ue, de, sh,
    h1, h2, h3, h4, h5, h6, h7, h8, h9, h10, rfl⟩ := layerEntries_inv hout
  have hgmem : expGateKey i 0 ∈ srcLayerKeys E i := by
    unfold srcLayerKeys
    refine List.mem_append.mpr (Or.inr ?_)
    exact List.mem_flatMap.mpr ⟨0, List.mem_range.mpr hE, by simp⟩
  have humem : expUpKey i 0 ∈ srcLayerKeys E i := by
    unfold srcLayerKeys
    refine List.mem_append.mpr (Or.inr ?_)
    exact List.mem_flatMap.mpr ⟨0, List.mem_range.mpr hE, by simp⟩
  have hdmem : expDownKey i 0 ∈ srcLayerKeys E i := by
    unfold srcLayerKeys
    refine List.mem_append.mpr (Or.inr ?_)
    exact List.mem_flatMap.mpr ⟨0, List.mem_range.mpr hE, by simp⟩
  obtain ⟨w1, hw1⟩ := Option.isSome_iff_exists.mp
    (hsrc (hPre i ++ ".ln_1.weight") (by simp [srcLayerKeys]))
  obtain ⟨w2, hw2⟩ := Option.isSome_iff_exists.mp
    (hsrc (hPre i ++ ".ln_2.weight") (by simp [srcLayerKeys]))
  obtain ⟨w3, hw3⟩ := Option.isSome_iff_exists.mp
    (hsrc (hPre i ++ ".attn.q_proj.weight") (by simp [srcLayerKeys]))
  obtain ⟨w4, hw4⟩ := Option.isSome_iff_exists.mp
    (hsrc (hPre i ++ ".attn.q_decompress.weight") (by simp [srcLayerKeys]))
  obtain ⟨w5, hw5⟩ := Option.isSome_iff_exists.mp
    (hsrc (hPre i ++ ".attn.kv_norm.weight") (by simp [srcLayerKeys]))
  obtain ⟨wkv, hwkv⟩ := Option.isSome_iff_exists.mp
    (hsrc (hPre i ++ ".attn.kv_proj.weight") (by simp [srcLayerKeys]))
  obtain ⟨wkr, hwkr⟩ := Option.isSome_iff_exists.mp
    (hsrc (hPre i ++ ".attn.k_rope_proj.weight") (by simp [srcLayerKeys]))
  obtain ⟨wkd, hwkd⟩ := Option.isSome_iff_exists.mp
    (hsrc (hPre i ++ ".attn.k_decompress.weight") (by simp [srcLayerKeys]))
  obtain ⟨wvd, hwvd⟩ := Option.isSome_iff_exists.mp
    (hsrc (hPre i ++ ".attn.v_decompress.weight") (by simp [srcLayerKeys]))
  obtain ⟨w6, hw6⟩ := Option.isSome_iff_exists.mp
    (hsrc (hPre i ++ ".attn.o_proj.weight") (by simp [srcLayerKeys]))
  obtain ⟨w7, hw7⟩ := Option.isSome_iff_exists.mp
    (hsrc (hPre i ++ ".mlp.router.weight") (by simp [srcLayerKeys]))
  obtain ⟨wg0, hwg0⟩ := Option.isSome_iff_exists.mp (hsrc _ hgmem)
  obtain ⟨wu0, hwu0⟩ := Option.isSome_iff_exists.mp (hsrc _ humem)
  obtain ⟨wd0, hwd0⟩ := Option.isSome_iff_exists.mp (hsrc _ hdmem)
  obtain ⟨hdA, cmbA, _, _, hkvAeq⟩ := kvAEntries_present hwkv hwkr h1
  obtain ⟨cmbB, _, hkvBeq⟩ := kvBEntries_present hwkd hwvd h2
  have hnE : 1 ≤ r.num_experts := by
    rw [remap_num_experts h]
    exact detectNumExperts_ge (t := ".gate_proj.weight") rfl (hsrc _ hgmem)
  have h4' : collectLoop sd (expGateKey i) r.unified_size hs
      (List.range r.num_experts) [] = .ok gates := h4
  have h5' : collectLoop sd (expUpKey i) r.unified_size hs
      (List.range r.num_experts) [] = .ok ups := h5
  have h6' : collectLoop sd (expDownKey i) hs r.unified_size
      (List.range r.num_experts) [] = .ok downs := h6
  have hgne : gates ≠ [] :=
    collectLoop_ne_nil (List.mem_range.mpr (by omega)) hwg0 h4'
  have hune : ups ≠ [] :=
    collectLoop_ne_nil (List.mem_range.mpr (by omega)) hwu0 h5'
  have hdne : downs ≠ [] :=
    collectLoop_ne_nil (List.mem_range.mpr (by omega)) hwd0 h6'
  rcases stackEntry_cases h7 with ⟨_, hnil⟩ | ⟨sg, hsg, hgeq⟩
  · exact absurd hnil hgne
  rcases stackEntry_cases h8 with ⟨_, hnil⟩ | ⟨su2, hsu2, hueq⟩
  · exact absurd hnil hune
  rcases stackEntry_cases h9 with ⟨_, hnil⟩ | ⟨sd2, hsd2, hdeq⟩
  · exact absurd hnil hdne
  rcases sharedEntries_cases h10 with ⟨_, hnone⟩ | ⟨g, su, sdn, _, _, _, hsheq⟩
  · have hp := hsrc (hPre i ++ ".mlp.shared_expert.gate_proj.weight")
      (by simp [srcLayerKeys])
    rw [hnone] at hp
    simp at hp
  rw [guardEntry_present _ hw1, guardEntry_present _ hw2, guardEntry_present _ hw3,
    guardEntry_present _ hw4, guardEntry_present _ hw5, guardEntry_present _ hw6,
    guardEntry_present _ hw7, hkvAeq, hkvBeq, hgeq, hueq, hdeq, hsheq] at hsub
  intro s hsmem
  simp only [destSuffixes, List.mem_cons, List.mem_singleton,
    List.not_mem_nil, or_false] at hsmem
  rcases hsmem with rfl | rfl | rfl | rfl | rfl | rfl | rfl | rfl | rfl | rfl
    | rfl | rfl | rfl | rfl | rfl | rfl | rfl
  · exact ⟨w1, hsub _ (by simp)⟩
  · exact ⟨w2, hsub _ (by simp)⟩
  · exact ⟨w3, hsub _ (by simp)⟩
  · exact ⟨w4, hsub _ (by simp)⟩
  · exact ⟨w5, hsub _ (by simp)⟩
  · exact ⟨onesT 192, hsub _ (by simp)⟩
  · exact ⟨cmbA, hsub _ (by simp)⟩
  · exact ⟨cmbB, hsub _ (by simp)⟩
  · exact ⟨w6, hsub _ (by simp)⟩
  · exact ⟨w7, hsub _ (by simp)⟩
  · exact ⟨zerosT r.num_experts, hsub _ (by simp)⟩
  · exact ⟨sg, hsub _ (by simp)⟩
  · exact ⟨su2, hsub _ (by simp)⟩
  · exact ⟨sd2, hsub _ (by simp)⟩
  · exact ⟨g, hsub _ (by simp)⟩
  · exact ⟨su, hsub _ (by simp)⟩
  · exact ⟨sdn, hsub _ (by simp)⟩

/-- An entry keyed by the stacked `gate_proj` destination suffix is the
stack of the collected `gate` projections. -/
theorem layerEntries_gate_stack {sd : StateDict} {u nE i : Nat}
    {out : List (String × Tensor) × Nat} {i2 : Nat} {t : Tensor}
    (h : layerEntries sd u nE i = .ok out)
    (hm : (mlxPre i2 ++ ".mlp.switch_mlp.gate_proj.weight", t) ∈ out.1) :
    ∃ col hs, hiddenSize sd = .ok hs ∧ collectPadded sd (expGateKey i) u hs nE = .ok col ∧ stackT col = .ok t := by
  obtain ⟨kvA, kvB, hs, gates, ups, downs, ge, ue, de, sh,
    h1, h2, h3, h4, h5, h6, h7, h8, h9, h10, rfl⟩ := layerEntries_inv h
  simp only [List.mem_append] at hm
  rcases hm with (((((((((((((hm | hm) | hm) | hm) | hm) | hm) | hm) | hm)
      | hm) | hm) | hm) | hm) | hm) | hm) | hm
  · obtain ⟨hk, _⟩ := guardEntry_mem_iff.mp hm
    exact absurd (mlxKey_inj (by decide) (by decide) hk).2 (by decide)
  · obtain ⟨hk, _⟩ := guardEntry_mem_iff.mp hm
    exact absurd (mlxKey_inj (by decide) (by decide) hk).2 (by decide)
  · obtain ⟨hk, _⟩ := guardEntry_mem_iff.mp hm
    exact absurd (mlxKey_inj (by decide) (by decide) hk).2 (by decide)
  · obtain ⟨hk, _⟩ := guardEntry_mem_iff.mp hm
    exact absurd (mlxKey_inj (by decide) (by decide) hk).2 (by decide)
  · obtain ⟨hk, _⟩ := guardEntry_mem_iff.mp hm
    exact absurd (mlxKey_inj (by decide) (by decide) hk).2 (by decide)
  · simp only [List.mem_singleton] at hm
    exact absurd (mlxKey_inj (by decide) (by decide) (congrArg Prod.fst hm)).2 (by decide)
  · rcases kvAEntries_cases h1 with rfl | ⟨w, hw⟩
    · cases hm
    · rw [hw] at hm
      simp only [List.mem_singleton] at hm
      exact absurd (mlxKey_inj (by decide) (by decide) (congrArg Prod.fst hm)).2 (by decide)
  · rcases kvBEntries_cases h2 with rfl | ⟨w, hw⟩
    · cases hm
    · rw [hw] at hm
      simp only [List.mem_singleton] at hm
      exact absurd (mlxKey_inj (by decide) (by decide) (congrArg Prod.fst hm)).2 (by decide)
  · obtain ⟨hk, _⟩ := guardEntry_mem_iff.mp hm
    exact absurd (mlxKey_inj (by decide) (by decide) hk).2 (by decide)
  · obtain ⟨hk, _⟩ := guardEntry_mem_iff.mp hm
    exact absurd (mlxKey_inj (by decide) (by decide) hk).2 (by decide)
  · simp only [List.mem_singleton] at hm
    exact absurd (mlxKey_inj (by decide) (by decide) (congrArg Prod.fst hm)).2 (by decide)
  · rcases stackEntry_cases h7 with ⟨rfl, _⟩ | ⟨sx, hsx, hxeq⟩
    · cases hm
    · rw [hxeq] at hm
      simp only [List.mem_singleton] at hm
      have ht : t = sx := congrArg Prod.snd hm
      refine ⟨_, hs, h3, h4, ?_⟩
      rw [ht]
      exact hsx
  · rcases stackEntry_cases h8 with ⟨rfl, _⟩ | ⟨sx, hsx, hxeq⟩
    · cases hm
    · rw [hxeq] at hm
      simp only [List.mem_singleton] at hm
      exact absurd (mlxKey_inj (by decide) (by decide) (congrArg Prod.fst hm)).2 (by decide)
  · rcases stackEntry_cases h9 with ⟨rfl, _⟩ | ⟨sx, hsx, hxeq⟩
    · cases hm
    · rw [hxeq] at hm
      simp only [List.mem_singleton] at hm
      exact absurd (mlxKey_inj (by decide) (by decide) (congrArg Prod.fst hm)).2 (by decide)
  · rcases sharedEntries_cases h10 with ⟨rfl, _⟩ | ⟨g, u, d, _, _, _, hsheq⟩
    · cases hm
    · rw [hsheq] at hm
      simp only [List.mem_cons, List.mem_singleton, List.not_mem_nil, or_false] at hm
      rcases hm with hm | hm | hm <;>
        exact absurd (mlxKey_inj (by decide) (by decide) (congrArg Prod.fst hm)).2 (by decide)

/-- An entry keyed by the stacked `up_proj` destination suffix is the
stack of the collected `up` projections. -/
theorem layerEntries_up_stack {sd : StateDict} {u nE i : Nat}
    {out : List (String × Tensor) × Nat} {i2 : Nat} {t : Tensor}
    (h : layerEntries sd u nE i = .ok out)
    (hm : (mlxPre i2 ++ ".mlp.switch_mlp.up_proj.weight", t) ∈ out.1) :
    ∃ col hs, hiddenSize sd = .ok hs ∧ collectPadded sd (expUpKey i) u hs nE = .ok col ∧ stackT col = .ok t := by
  obtain ⟨kvA, kvB, hs, gates, ups, downs, ge, ue, de, sh,
    h1, h2, h3, h4, h5, h6, h7, h8, h9, h10, rfl⟩ := layerEntries_inv h
  simp only [List.mem_append] at hm
  rcases hm with (((((((((((((hm | hm) | hm) | hm) | hm) | hm) | hm) | hm)
      | hm) | hm) | hm) | hm) | hm) | hm) | hm
  · obtain ⟨hk, _⟩ := guardEntry_mem_iff.mp hm
    exact absurd (mlxKey_inj (by decide) (by decide) hk).2 (by decide)
  · obtain ⟨hk, _⟩ := guardEntry_mem_iff.mp hm
    exact absurd (mlxKey_inj (by decide) (by decide) hk).2 (by decide)
  · obtain ⟨hk, _⟩ := guardEntry_mem_iff.mp hm
    exact absurd (mlxKey_inj (by decide) (by decide) hk).2 (by decide)
  · obtain ⟨hk, _⟩ := guardEntry_mem_iff.mp hm
    exact absurd (mlxKey_inj (by decide) (by decide) hk).2 (by decide)
  · obtain ⟨hk, _⟩ := guardEntry_mem_iff.mp hm
    exact absurd (mlxKey_inj (by decide) (by decide) hk).2 (by decide)
  · simp only [List.mem_singleton] at hm
    exact absurd (mlxKey_inj (by decide) (by decide) (congrArg Prod.fst hm)).2 (by decide)
  · rcases kvAEntries_cases h1 with rfl | ⟨w, hw⟩
    · cases hm
    · rw [hw] at hm
      simp only [List.mem_singleton] at hm
      exact absurd (mlxKey_inj (by decide) (by decide) (congrArg Prod.fst hm)).2 (by decide)
  · rcases kvBEntries_cases h2 with rfl | ⟨w, hw⟩
    · cases hm
    · rw [hw] at hm
      simp only [List.mem_singleton] at hm
      exact absurd (mlxKey_inj (by decide) (by decide) (congrArg Prod.fst hm)).2 (by decide)
  · obtain ⟨hk, _⟩ := guardEntry_mem_iff.mp hm
    exact absurd (mlxKey_inj (by decide) (by decide) hk).2 (by decide)
  · obtain ⟨hk, _⟩ := guardEntry_mem_iff.mp hm
    exact absurd (mlxKey_inj (by decide) (by decide) hk).2 (by decide)
  · simp only [List.mem_singleton] at hm
    exact absurd (mlxKey_inj (by decide) (by decide) (congrArg Prod.fst hm)).2 (by decide)
  · rcases stackEntry_cases h7 with ⟨rfl, _⟩ | ⟨sx, hsx, hxeq⟩
    · cases hm
    · rw [hxeq] at hm
      simp only [List.mem_singleton] at hm
      exact absurd (mlxKey_inj (by decide) (by decide) (congrArg Prod.fst hm)).2 (by decide)
  · rcases stackEntry_cases h8 with ⟨rfl, _⟩ | ⟨sx, hsx, hxeq⟩
    · cases hm
    · rw [hxeq] at hm
      simp only [List.mem_singleton] at hm
      have ht : t = sx := congrArg Prod.snd hm
      refine ⟨_, hs, h3, h5, ?_⟩
      rw [ht]
      exact hsx
  · rcases stackEntry_cases h9 with ⟨rfl, _⟩ | ⟨sx, hsx, hxeq⟩
    · cases hm
    · rw [hxeq] at hm
      simp only [List.mem_singleton] at hm
      exact absurd (mlxKey_inj (by decide) (by decide) (congrArg Prod.fst hm)).2 (by decide)
  · rcases sharedEntries_cases h10 with ⟨rfl, _⟩ | ⟨g, u, d, _, _, _, hsheq⟩
    · cases hm
    · rw [hsheq] at hm
      simp only [List.mem_cons, List.mem_singleton, List.not_mem_nil, or_false] at hm
      rcases hm with hm | hm | hm <;>
        exact absurd (mlxKey_inj (by decide) (by decide) (congrArg Prod.fst hm)).2 (by decide)

/-- An entry keyed by the stacked `down_proj` destination suffix is the
stack of the collected `down` projections. -/
theorem layerEntries_down_stack {sd : StateDict} {u nE i : Nat}
    {out : List (String × Tensor) × Nat} {i2 : Nat} {t : Tensor}
    (h : layerEntries sd u nE i = .ok out)
    (hm : (mlxPre i2 ++ ".mlp.switch_mlp.down_proj.weight", t) ∈ out.1) :
    ∃ col hs, hiddenSize sd = .ok hs ∧ collectPadded sd (expDownKey i) hs u nE = .ok col ∧ stackT col = .ok t := by
  obtain ⟨kvA, kvB, hs, gates, ups, downs, ge, ue, de, sh,
    h1, h2, h3, h4, h5, h6, h7, h8, h9, h10, rfl⟩ := layerEntries_inv h
  simp only [List.mem_append] at hm
  rcases hm with (((((((((((((hm | hm) | hm) | hm) | hm) | hm) | hm) | hm)
      | hm) | hm) | hm) | hm) | hm) | hm) | hm
  · obtain ⟨hk, _⟩ := guardEntry_mem_iff.mp hm
    exact absurd (mlxKey_inj (by decide) (by decide) hk).2 (by decide)
  · obtain ⟨hk, _⟩ := guardEntry_mem_iff.mp hm
    exact absurd (mlxKey_inj (by decide) (by decide) hk).2 (by decide)
  · obtain ⟨hk, _⟩ := guardEntry_mem_iff.mp hm
    exact absurd (mlxKey_inj (by decide) (by decide) hk).2 (by decide)
  · obtain ⟨hk, _⟩ := guardEntry_mem_iff.mp hm
    exact absurd (mlxKey_inj (by decide) (by decide) hk).2 (by decide)
  · obtain ⟨hk, _⟩ := guardEntry_mem_iff.mp hm
    exact absurd (mlxKey_inj (by decide) (by decide) hk).2 (by decide)
  · simp only [List.mem_singleton] at hm
    exact absurd (mlxKey_inj (by decide) (by decide) (congrArg Prod.fst hm)).2 (by decide)
  · rcases kvAEntries_cases h1 with rfl | ⟨w, hw⟩
    · cases hm
    · rw [hw] at hm
      simp only [List.mem_singleton] at hm
      exact absurd (mlxKey_inj (by decide) (by decide) (congrArg Prod.fst hm)).2 (by decide)
  · rcases kvBEntries_cases h2 with rfl | ⟨w, hw⟩
    · cases hm
    · rw [hw] at hm
      simp only [List.mem_singleton] at hm
      exact absurd (mlxKey_inj (by decide) (by decide) (congrArg Prod.fst hm)).2 (by decide)
  · obtain ⟨hk, _⟩ := guardEntry_mem_iff.mp hm
    exact absurd (mlxKey_inj (by decide) (by decide) hk).2 (by decide)
  · obtain ⟨hk, _⟩ := guardEntry_mem_iff.mp hm
    exact absurd (mlxKey_inj (by decide) (by decide) hk).2 (by decide)
  · simp only [List.mem_singleton] at hm
    exact absurd (mlxKey_inj (by decide) (by decide) (congrArg Prod.fst hm)).2 (by decide)
  · rcases stackEntry_cases h7 with ⟨rfl, _⟩ | ⟨sx, hsx, hxeq⟩
    · cases hm
    · rw [hxeq] at hm
      simp only [List.mem_singleton] at hm
      exact absurd (mlxKey_inj (by decide) (by decide) (congrArg Prod.fst hm)).2 (by decide)
  · rcases stackEntry_cases h8 with ⟨rfl, _⟩ | ⟨sx, hsx, hxeq⟩
    · cases hm
    · rw [hxeq] at hm
      simp only [List.mem_singleton] at hm
      exact absurd (mlxKey_inj (by decide) (by decide) (congrArg Prod.fst hm)).2 (by decide)
  · rcases stackEntry_cases h9 with ⟨rfl, _⟩ | ⟨sx, hsx, hxeq⟩
    · cases hm
    · rw [hxeq] at hm
      simp only [List.mem_singleton] at hm
      have ht : t = sx := congrArg Prod.snd hm
      refine ⟨_, hs, h3, h6, ?_⟩
      rw [ht]
      exact hsx
  · rcases sharedEntries_cases h10 with ⟨rfl, _⟩ | ⟨g, u, d, _, _, _, hsheq⟩
    · cases hm
    · rw [hsheq] at hm
      simp only [List.mem_cons, List.mem_singleton, List.not_mem_nil, or_false] at hm
      rcases hm with hm | hm | hm <;>
        exact absurd (mlxKey_inj (by decide) (by decide) (congrArg Prod.fst hm)).2 (by decide)

/-- A collection over `nE` expert indices of which exactly those below `E`
are present collects exactly `E` tensors. -/
theorem collect_count_E {sd : StateDict} {keyOf : Nat → String} {a b nE E : Nat}
    {col : List Tensor}
    (hcol : collectPadded sd keyOf a b nE = .ok col)
    (hiff : ∀ j, j < nE → ((lookupKey sd (keyOf j)).isSome = true ↔ j < E))
    (hEn : E ≤ nE) :
    col.length = E := by
  have h0 : collectLoop sd keyOf a b (List.range nE) [] = .ok col := hcol
  have hc := collectLoop_count h0
  have hf := range_filter_len nE hiff
  simp only [List.length_nil, Nat.zero_add] at hc
  omega

/-- **C5.** For a source checkpoint whose detected layer count is `L` and
whose routed experts are exactly `0..E-1` in every layer below `L` (all
catalogue source keys present there, no expert key at an index `≥ E`,
`E ≥ 1`), the produced mapping contains every catalogue destination key for
every layer index below `L` and a catalogue-suffixed layer key for no other
index, and every stacked `switch_mlp` expert tensor has leading dimension
`E`. -/
theorem C5_layer_expert_shapes {sd : StateDict} {r : RemapResult} {L E : Nat}
    (h : remap_weights sd = .ok r)
    (hL : r.num_layers = (L : Int))
    (hsrc : ∀ i ∈ List.range L, ∀ k ∈ srcLayerKeys E i, (lookupKey sd k).isSome)
    (habs : ∀ i ∈ List.range L, ∀ j ∈ List.range (detectNumExperts sd), E ≤ j →
      lookupKey sd (expGateKey i j) = none ∧ lookupKey sd (expUpKey i j) = none ∧
      lookupKey sd (expDownKey i j) = none)
    (hE : 1 ≤ E) :
    (∀ i, i < L → ∀ s ∈ destSuffixes, ∃ t, (mlxPre i ++ s, t) ∈ r.weights) ∧
    (∀ kv ∈ r.weights, ∀ i : Nat, ∀ s ∈ destSuffixes, kv.1 = mlxPre i ++ s → i < L) ∧
    (∀ i, i < L → ∀ t,
      (mlxPre i ++ ".mlp.switch_mlp.gate_proj.weight", t) ∈ r.weights →
      t.shape.head? = some E) ∧
    (∀ i, i < L → ∀ t,
      (mlxPre i ++ ".mlp.switch_mlp.up_proj.weight", t) ∈ r.weights →
      t.shape.head? = some E) ∧
    (∀ i, i < L → ∀ t,
      (mlxPre i ++ ".mlp.switch_mlp.down_proj.weight", t) ∈ r.weights →
      t.shape.head? = some E) := by
  have hnEeq := remap_num_experts h
  refine ⟨?_, ?_, ?_, ?_, ?_⟩
  · intro i hi
    exact layer_dest_present h (by omega) (hsrc i (List.mem_range.mpr hi)) hE
  · intro kv hkv i s hsmem hkey
    rcases remap_mem_cases h hkv with hm | ⟨i2, hi2, out, hout, hm⟩ | hm | hm
    · obtain ⟨hk, _⟩ := guardEntry_mem_iff.mp hm
      rw [hk] at hkey
      exact absurd hkey.symm (mlxKey_ne_embed i s)
    · obtain ⟨s2, hs2mem, hks2⟩ := layerEntries_keys hout kv hm
      rw [hks2] at hkey
      obtain ⟨rfl, rfl⟩ := mlxKey_inj (destSuffixes_head s2 hs2mem)
        (destSuffixes_head s hsmem) hkey
      omega
    · obtain ⟨hk, _⟩ := guardEntry_mem_iff.mp hm
      rw [hk] at hkey
      exact absurd hkey.symm (mlxKey_ne_norm i s)
    · obtain ⟨hk, _⟩ := guardEntry_mem_iff.mp hm
      rw [hk] at hkey
      exact absurd hkey.symm (mlxKey_ne_head i s)
  · intro i hi t hmemt
    rcases remap_mem_cases h hmemt with hm | ⟨i2, hi2, out, hout, hm⟩ | hm | hm
    · obtain ⟨hk, _⟩ := guardEntry_mem_iff.mp hm
      exact absurd hk (mlxKey_ne_embed i _)
    · obtain ⟨col, hs, _, hcol, hstack⟩ := layerEntries_gate_stack hout hm
      have hi2L : i2 < L := by omega
      have hiff : ∀ j, j < r.num_experts →
          ((lookupKey sd (expGateKey i2 j)).isSome = true ↔ j < E) := by
        intro j hj
        constructor
        · intro hpj
          by_contra hge2
          have hnone := (habs i2 (List.mem_range.mpr hi2L) j
            (List.mem_range.mpr (by omega)) (by omega)).1
          rw [hnone] at hpj
          simp at hpj
        · intro hjE
          have hmemk : expGateKey i2 j ∈ srcLayerKeys E i2 := by
            unfold srcLayerKeys
            refine List.mem_append.mpr (Or.inr ?_)
            exact List.mem_flatMap.mpr ⟨j, List.mem_range.mpr hjE, by simp⟩
          exact hsrc i2 (List.mem_range.mpr hi2L) _ hmemk
      have hEn : E ≤ r.num_experts := by
        have hmemk : expGateKey i2 (E - 1) ∈ srcLayerKeys E i2 := by
          unfold srcLayerKeys
          refine List.mem_append.mpr (Or.inr ?_)
          exact List.mem_flatMap.mpr ⟨E - 1, List.mem_range.mpr (by omega), by simp⟩
        have hd := detectNumExperts_ge (t := ".gate_proj.weight") rfl
          (hsrc i2 (List.mem_range.mpr hi2L) _ hmemk)
        omega
      have hlen : col.length = E := collect_count_E hcol hiff hEn
      obtain ⟨t0, rest, hcons, hshape⟩ := stackT_ok_shape hstack
      rw [hshape, hlen]
      rfl
    · obtain ⟨hk, _⟩ := guardEntry_mem_iff.mp hm
      exact absurd hk (mlxKey_ne_norm i _)
    · obtain ⟨hk, _⟩ := guardEntry_mem_iff.mp hm
      exact absurd hk (mlxKey_ne_head i _)
  · intro i hi t hmemt
    rcases remap_mem_cases h hmemt with hm | ⟨i2, hi2, out, hout, hm⟩ | hm | hm
    · obtain ⟨hk, _⟩ := guardEntry_mem_iff.mp hm
      exact absurd hk (mlxKey_ne_embed i _)
    · obtain ⟨col, hs, _, hcol, hstack⟩ := layerEntries_up_stack hout hm
      have hi2L : i2 < L := by omega
      have hiff : ∀ j, j < r.num_experts →
          ((lookupKey sd (expUpKey i2 j)).isSome = true ↔ j < E) := by
        intro j hj
        constructor
        · intro hpj
          by_contra hge2
          have hnone := (habs i2 (List.mem_range.mpr hi2L) j
            (List.mem_range.mpr (by omega)) (by omega)).2.1
          rw [hnone] at hpj
          simp at hpj
        · intro hjE
          have hmemk : expUpKey i2 j ∈ srcLayerKeys E i2 := by
            unfold srcLayerKeys
            refine List.mem_append.mpr (Or.inr ?_)
            exact List.mem_flatMap.mpr ⟨j, List.mem_range.mpr hjE, by simp⟩
          exact hsrc i2 (List.mem_range.mpr hi2L) _ hmemk
      have hEn : E ≤ r.num_experts := by
        have hmemk : expGateKey i2 (E - 1) ∈ srcLayerKeys E i2 := by
          unfold srcLayerKeys
          refine List.mem_append.mpr (Or.inr ?_)
          exact List.mem_flatMap.mpr ⟨E - 1, List.mem_range.mpr (by omega), by simp⟩
        have hd := detectNumExperts_ge (t := ".gate_proj.weight") rfl
          (hsrc i2 (List.mem_range.mpr hi2L) _ hmemk)
        omega
      have hlen : col.length = E := collect_count_E hcol hiff hEn
      obtain ⟨t0, rest, hcons, hshape⟩ := stackT_ok_shape hstack
      rw [hshape, hlen]
      rfl
    · obtain ⟨hk, _⟩ := guardEntry_mem_iff.mp hm
      exact absurd hk (mlxKey_ne_norm i _)
    · obtain ⟨hk, _⟩ := guardEntry_mem_iff.mp hm
      exact absurd hk (mlxKey_ne_head i _)
  · intro i hi t hmemt
    rcases remap_mem_cases h hmemt with hm | ⟨i2, hi2, out, hout, hm⟩ | hm | hm
    · obtain ⟨hk, _⟩ := guardEntry_mem_iff.mp hm
      exact absurd hk (mlxKey_ne_embed i _)
    · obtain ⟨col, hs, _, hcol, hstack⟩ := layerEntries_down_stack hout hm
      have hi2L : i2 < L := by omega
      have hiff : ∀ j, j < r.num_experts →
          ((lookupKey sd (expDownKey i2 j)).isSome = true ↔ j < E) := by
        intro j hj
        constructor
        · intro hpj
          by_contra hge2
          have hnone := (habs i2 (List.mem_range.mpr hi2L) j
            (List.mem_range.mpr (by omega)) (by omega)).2.2
          rw [hnone] at hpj
          simp at hpj
        · intro hjE
          have hmemk : expDownKey i2 j ∈ srcLayerKeys E i2 := by
            unfold srcLayerKeys
            refine List.mem_append.mpr (Or.inr ?_)
            exact List.mem_flatMap.mpr ⟨j, List.mem_range.mpr hjE, by simp⟩
          exact hsrc i2 (List.mem_range.mpr hi2L) _ hmemk
      have hEn : E ≤ r.num_experts := by
        have hmemk : expGateKey i2 (E - 1) ∈ srcLayerKeys E i2 := by
          unfold srcLayerKeys
          refine List.mem_append.mpr (Or.inr ?_)
          exact List.mem_flatMap.mpr ⟨E - 1, List.mem_range.mpr (by omega), by simp⟩
        have hd := detectNumExperts_ge (t := ".gate_proj.weight") rfl
          (hsrc i2 (List.mem_range.mpr hi2L) _ hmemk)
        omega
      have hlen : col.length = E := collect_count_E hcol hiff hEn
      obtain ⟨t0, rest, hcons, hshape⟩ := stackT_ok_shape hstack
      rw [hshape, hlen]
      rfl
    · obtain ⟨hk, _⟩ := guardEntry_mem_iff.mp hm
      exact absurd hk (mlxKey_ne_norm i _)
    · obtain ⟨hk, _⟩ := guardEntry_mem_iff.mp hm
      exact absurd hk (mlxKey_ne_head i _)

/-- A `[1]`-shaped zero tensor. -/
def z1 : Tensor := ⟨[1], [0]⟩

/-- A `[1, 1]`-shaped zero tensor. -/
def z11 : Tensor := ⟨[1, 1], [0]⟩

/-- A complete one-layer, one-expert source checkpoint with minimal tensor
sizes (`k/v_decompress` must factor as `8 × 64 × c`, `k_rope_proj` must have
at least 32 rows). -/
def sdFull : StateDict :=
  [("wte.weight", z11),
   ("ln_f.weight", z1),
   ("lm_head.weight", z11),
   ("h.0.ln_1.weight", z1),
   ("h.0.ln_2.weight", z1),
   ("h.0.attn.q_proj.weight", z11),
   ("h.0.attn.q_decompress.weight", z11),
   ("h.0.attn.kv_norm.weight", z1),
   ("h.0.attn.kv_proj.weight", z11),
   ("h.0.attn.k_rope_proj.weight", ⟨[32, 1], List.replicate 32 0⟩),
   ("h.0.attn.k_decompress.weight", ⟨[512, 1], List.replicate 512 0⟩),
   ("h.0.attn.v_decompress.weight", ⟨[512, 1], List.replicate 512 0⟩),
   ("h.0.attn.o_proj.weight", z11),
   ("h.0.mlp.router.weight", z11),
   ("h.0.mlp.shared_expert.gate_proj.weight", z11),
   ("h.0.mlp.shared_expert.up_proj.weight", z11),
   ("h.0.mlp.shared_expert.down_proj.weight", z11),
   ("h.0.mlp.experts.0.gate_proj.weight", z11),
   ("h.0.mlp.experts.0.up_proj.weight", z11),
   ("h.0.mlp.experts.0.down_proj.weight", z11)]

/-- The remap result for `sdFull`. -/
def rFull : RemapResult :=
  match remap_weights sdFull with
  | .ok r => r
  | .error _ => default

set_option maxRecDepth 20000 in
/-- `sdFull` remaps successfully to `rFull`. -/
theorem remap_sdFull : remap_weights sdFull = .ok rFull := rfl

set_option maxRecDepth 20000 in
/-- Witness: C5 applied to the complete one-layer, one-expert checkpoint
`sdFull`. -/
theorem C5_layer_expert_shapes_witness :
    ∃ t, ("model.layers.0.mlp.switch_mlp.gate_proj.weight", t) ∈ rFull.weights :=
  (C5_layer_expert_shapes (L := 1) (E := 1) remap_sdFull rfl
      (by decide) (by decide) (by decide)).1
    0 (by decide) ".mlp.switch_mlp.gate_proj.weight" (by decide)

/-- The three unguarded global copies appear in the mapping whenever their
source keys are present. -/
theorem remap_globals_mem {sd : StateDict} {r : RemapResult}
    (h : remap_weights sd = .ok r) :
    (∀ w, lookupKey sd "wte.weight" = some w →
      ("model.embed_tokens.weight", w) ∈ r.weights) ∧
    (∀ w, lookupKey sd "ln_f.weight" = some w →
      ("model.norm.weight", w) ∈ r.weights) ∧
    (∀ w, lookupKey sd "lm_head.weight" = some w →
      ("lm_head.weight", w) ∈ r.weights) := by
  obtain ⟨L, rs, ss, parts, h1, h2, h3, h4, h5, rfl⟩ := remap_weights_inv h
  refine ⟨?_, ?_, ?_⟩ <;> intro w hw
  · simp only [List.mem_append]
    refine Or.inl (Or.inl (Or.inl ?_))
    rw [guardEntry_present _ hw]
    simp
  · simp only [List.mem_append]
    refine Or.inl (Or.inr ?_)
    rw [guardEntry_present _ hw]
    simp
  · simp only [List.mem_append]
    refine Or.inr ?_
    rw [guardEntry_present _ hw]
    simp

/-- **C8.** If the source checkpoint is complete for `L` layers and `E ≥ 1`
experts (every catalogue source key present for every layer below `L`, plus
embedding, final norm and head keys) and the detected layer count is `L`,
then every key of the verifier's presence catalogue (with shared experts
enabled) is among the produced destination keys: the verifier reports zero
missing keys. -/
theorem C8_verifier_complete {sd : StateDict} {r : RemapResult} {L E : Nat}
    (h : remap_weights sd = .ok r) (hL : r.num_layers = (L : Int))
    (hc : completeSrc sd L E) (hE : 1 ≤ E) :
    verifierMissing (r.weights.map Prod.fst) L true = [] := by
  rw [verifierMissing, List.filter_eq_nil_iff]
  intro k hk
  suffices hks : k ∈ r.weights.map Prod.fst by simp [hks]
  unfold verifierRequired at hk
  simp only [List.mem_append, List.mem_singleton, List.mem_cons, List.mem_flatMap,
    List.mem_range, List.not_mem_nil, or_false] at hk
  obtain ⟨hembed, hnorm, hhead⟩ := remap_globals_mem h
  rcases hk with (rfl | ⟨i, hiL, hkl⟩) | (rfl | rfl)
  · obtain ⟨w, hw⟩ := Option.isSome_iff_exists.mp (hc "wte.weight" (by simp))
    exact List.mem_map.mpr ⟨_, hembed w hw, rfl⟩
  · have hpres := layer_dest_present h (i := i) (by omega)
      (fun k2 hk2 => hc k2 (by
        simp only [List.mem_cons]
        refine Or.inr (Or.inr (Or.inr ?_))
        exact List.mem_flatMap.mpr ⟨i, List.mem_range.mpr hiL, hk2⟩)) hE
    unfold verifierLayerKeys at hkl
    simp only [if_true, List.mem_append, List.mem_cons, List.mem_singleton,
      List.not_mem_nil, or_false] at hkl
    rcases hkl with (rfl | rfl | rfl | rfl | rfl | rfl | rfl | rfl | rfl | rfl | rfl | rfl | rfl | rfl) | (rfl | rfl | rfl)
    · obtain ⟨t, ht⟩ := hpres ".input_layernorm.weight" (by decide)
      exact List.mem_map.mpr ⟨_, ht, rfl⟩
    · obtain ⟨t, ht⟩ := hpres ".post_attention_layernorm.weight" (by decide)
      exact List.mem_map.mpr ⟨_, ht, rfl⟩
    · obtain ⟨t, ht⟩ := hpres ".self_attn.q_a_proj.weight" (by decide)
      exact List.mem_map.mpr ⟨_, ht, rfl⟩
    · obtain ⟨t, ht⟩ := hpres ".self_attn.q_a_layernorm.weight" (by decide)
      exact List.mem_map.mpr ⟨_, ht, rfl⟩
    · obtain ⟨t, ht⟩ := hpres ".self_attn.q_b_proj.weight" (by decide)
      exact List.mem_map.mpr ⟨_, ht, rfl⟩
    · obtain ⟨t, ht⟩ := hpres ".self_attn.kv_a_proj_with_mqa.weight" (by decide)
      exact List.mem_map.mpr ⟨_, ht, rfl⟩
    · obtain ⟨t, ht⟩ := hpres ".self_attn.kv_a_layernorm.weight" (by decide)
      exact List.mem_map.mpr ⟨_, ht, rfl⟩
    · obtain ⟨t, ht⟩ := hpres ".self_attn.kv_b_proj.weight" (by decide)
      exact List.mem_map.mpr ⟨_, ht, rfl⟩
    · obtain ⟨t, ht⟩ := hpres ".self_attn.o_proj.weight" (by decide)
      exact List.mem_map.mpr ⟨_, ht, rfl⟩
    · obtain ⟨t, ht⟩ := hpres ".mlp.gate.weight" (by decide)
      exact List.mem_map.mpr ⟨_, ht, rfl⟩
    · obtain ⟨t, ht⟩ := hpres ".mlp.gate.e_score_correction_bias" (by decide)
      exact List.mem_map.mpr ⟨_, ht, rfl⟩
    · obtain ⟨t, ht⟩ := hpres ".mlp.switch_mlp.gate_proj.weight" (by decide)
      exact List.mem_map.mpr ⟨_, ht, rfl⟩
    · obtain ⟨t, ht⟩ := hpres ".mlp.switch_mlp.up_proj.weight" (by decide)
      exact List.mem_map.mpr ⟨_, ht, rfl⟩
    · obtain ⟨t, ht⟩ := hpres ".mlp.switch_mlp.down_proj.weight" (by decide)
      exact List.mem_map.mpr ⟨_, ht, rfl⟩
    · obtain ⟨t, ht⟩ := hpres ".mlp.shared_experts.gate_proj.weight" (by decide)
      exact List.mem_map.mpr ⟨_, ht, rfl⟩
    · obtain ⟨t, ht⟩ := hpres ".mlp.shared_experts.up_proj.weight" (by decide)
      exact List.mem_map.mpr ⟨_, ht, rfl⟩
    · obtain ⟨t, ht⟩ := hpres ".mlp.shared_experts.down_proj.weight" (by decide)
      exact List.mem_map.mpr ⟨_, ht, rfl⟩
  · obtain ⟨w, hw⟩ := Option.isSome_iff_exists.mp (hc "ln_f.weight" (by simp))
    exact List.mem_map.mpr ⟨_, hnorm w hw, rfl⟩
  · obtain ⟨w, hw⟩ := Option.isSome_iff_exists.mp (hc "lm_head.weight" (by simp))
    exact List.mem_map.mpr ⟨_, hhead w hw, rfl⟩

set_option maxRecDepth 20000 in
/-- Witness: the verifier reports zero missing keys on the remap of the
complete one-layer checkpoint `sdFull`. -/
theorem C8_verifier_complete_witness :
    verifierMissing (rFull.weights.map Prod.fst) 1 true = [] :=
  C8_verifier_complete (E := 1) remap_sdFull rfl
    (by unfold completeSrc; decide) (by decide)
